import Mathlib

/-!
Verification development for the lemur marker-gene abundance-estimation
pipeline (src/lemur.py).

The numeric code of the source is modelled over exact arithmetic:
rational numbers where the source only adds, multiplies and divides
(scoring-model builders, plausibility filter), and real numbers with
`Real.exp` / `Real.log` for the log-space code (Markov scorer, EM core).
CIGAR operation sequences are lists of (operation code, run length)
pairs, with the pysam integer codes (M=0, I=1, D=2, "="=7, X=8, H=5,
S=4) and the sentinel matrix index -1.
-/

namespace Lemur

/-- `LemurRunEnv.CIGAR_OPS_INT` (lemur.py line 39): the operation codes
tracked by the transition-matrix builder, in source order. -/
def CIGAR_OPS_INT : List ℤ := [0, 1, 2, 7, 8, 5, 4]

/-- Row/column labels of the transition matrix built by
`build_transition_mat`: the seven operation codes plus the sentinel
start/end index -1 (lemur.py lines 337-340). -/
def OPS_ALL : List ℤ := [0, 1, 2, 7, 8, 5, 4, -1]

/-- The operation codes that receive a cost in `score_cigar_markov`
(lemur.py line 527: `OP in [1, 2, 7, 8, 5, 4]`); Match (0) is absent. -/
def SCORE_OPS : List ℤ := [1, 2, 7, 8, 5, 4]

/-- `LemurRunEnv.FIXED_COSTS` (lemur.py lines 41-47), the fallback
constants used by the Markov scorer. -/
def FIXED_COSTS : ℤ → ℚ := fun op =>
  if op = 0 then 1 else if op = 1 then 1/200 else if op = 2 then 1/200
  else if op = 7 then 1 else if op = 8 then 1/100 else if op = 4 then 1/20
  else if op = 5 then 1/1000 else 0

/-- An alignment's operation sequence: ordered (operation code, run
length) pairs, as produced by `aln.cigartuples`. -/
abbrev Cigar := List (ℤ × ℕ)

/-- `LemurRunEnv.TAXONOMY_RANKS` (lemur.py line 40). -/
def TAXONOMY_RANKS : List String :=
  ["species", "genus", "family", "order", "class", "phylum", "clade", "superkingdom"]

/-! ### Markov transition-matrix builder (`build_transition_mat`, lemur.py 336-358) -/

/-- Pointwise increment of a count matrix, modelling
`transition_mat.at[r, c] += k`. -/
def bumpZ (m : ℤ → ℤ → ℤ) (r c k : ℤ) : ℤ → ℤ → ℤ :=
  fun r' c' => if r' = r ∧ c' = c then m r' c' + k else m r' c'

/-- One step of the counting loop of `build_transition_mat`
(lemur.py 345-352): the state is (previous retained op, count matrix);
`it` is the enumerated run `(i, (OP, L))` and `N` the cigar length.
A SoftClip (4) run that is first or last is skipped entirely; runs whose
op is not in `CIGAR_OPS_INT` are skipped; otherwise `L - 1` is added to
the self cell, 1 to the (prev, op) cell when a previous op exists, and
the previous op becomes `OP`. -/
def buildStep (N : ℕ) (s : Option ℤ × (ℤ → ℤ → ℤ)) (it : ℕ × (ℤ × ℕ)) :
    Option ℤ × (ℤ → ℤ → ℤ) :=
  if ¬((it.1 = 0 ∨ it.1 = N - 1) ∧ it.2.1 = 4) then
    if it.2.1 ∈ CIGAR_OPS_INT then
      (some it.2.1,
        match s.1 with
        | some p => bumpZ (bumpZ s.2 it.2.1 it.2.1 ((it.2.2 : ℤ) - 1)) p it.2.1 1
        | none => bumpZ s.2 it.2.1 it.2.1 ((it.2.2 : ℤ) - 1))
    else s
  else s

/-- Accumulate one cigar's transition counts into matrix `m`
(the inner `for i, t in enumerate(cigar)` loop, with `prev_OP = None`
reset per cigar, lemur.py 342-352). -/
def countCigar (m : ℤ → ℤ → ℤ) (cigar : Cigar) : ℤ → ℤ → ℤ :=
  (cigar.enum.foldl (buildStep cigar.length) (none, m)).2

/-- The raw (unnormalized) transition-count matrix over a corpus of
cigars (lemur.py 337-352). -/
def countMat (cigars : List Cigar) : ℤ → ℤ → ℤ :=
  cigars.foldl countCigar (fun _ _ => 0)

/-- Row sum of the count matrix over the matrix's 8 columns, modelling
`transition_mat.sum(axis=1)` (lemur.py 355). -/
def rowSumCount (cigars : List Cigar) (r : ℤ) : ℤ :=
  (OPS_ALL.map (fun c => countMat cigars r c)).sum

/-- `build_transition_mat` (lemur.py 336-358): counts normalized by row
sums.  Rational division by zero is 0, which models the
`.fillna(0.)` applied to rows whose sum of counts is zero. -/
def build_transition_mat (cigars : List Cigar) : ℤ → ℤ → ℚ :=
  fun r c => (countMat cigars r c : ℚ) / (rowSumCount cigars r : ℚ)

/-! ### Boundary rule / retained runs (spec-side reformulation)

The spec describes the builder and scorer in terms of the list of
*retained* runs (boundary SoftClips and non-tracked ops removed), with
the previous retained op given by adjacency in that list.  These
definitions follow the spec's words and are proved equal to the
source-shaped folds above. -/

/-- The runs of a cigar retained for counting/scoring: drop a SoftClip
run that is the first or the last run of the sequence, and drop runs
whose op is not in `keep`. -/
def retainedRuns (keep : List ℤ) (cigar : Cigar) : Cigar :=
  (cigar.enum.filter (fun it =>
    decide (¬((it.1 = 0 ∨ it.1 = cigar.length - 1) ∧ it.2.1 = 4) ∧ it.2.1 ∈ keep))).map
    Prod.snd

/-- Adjacent pairs of a list of runs. -/
def pairsOf (l : Cigar) : List ((ℤ × ℕ) × (ℤ × ℕ)) := l.zip l.tail

/-- Spec-side self-transition count: the sum of `L - 1` over the runs
of `runs` whose op is `r`. -/
def selfCount (r : ℤ) (runs : Cigar) : ℤ :=
  ((runs.filter (fun t => decide (t.1 = r))).map (fun t => (t.2 : ℤ) - 1)).sum

/-- Spec-side pairwise-transition count: the number of adjacent pairs
of `runs` whose ops are `(r, c)`. -/
def adjCount (r c : ℤ) (runs : Cigar) : ℤ :=
  ((pairsOf runs).filter (fun pq => decide (pq.1.1 = r ∧ pq.2.1 = c))).length

/-- Spec-side per-cigar transition count with an optional preceding
retained op `prev` carried in from outside the list. -/
def cigRunCount (r c : ℤ) : Option ℤ → Cigar → ℤ
  | _, [] => 0
  | prev, (op, L) :: rest =>
      (if r = op ∧ c = op then (L : ℤ) - 1 else 0) +
      (match prev with
       | some p => if r = p ∧ c = op then 1 else 0
       | none => 0) +
      cigRunCount r c (some op) rest

/-- Spec-side total transition count over a corpus: per cigar, `L - 1`
on the diagonal for each retained run plus 1 for each adjacent pair of
retained runs. -/
def countSpec (cigars : List Cigar) (r c : ℤ) : ℤ :=
  (cigars.map (fun cg =>
    (if r = c then selfCount r (retainedRuns CIGAR_OPS_INT cg) else 0) +
      adjCount r c (retainedRuns CIGAR_OPS_INT cg))).sum

/-! ### Markov scorer (`score_cigar_markov`, lemur.py 519-540) -/

/-- One step of the scoring loop of `score_cigar_markov`: the state is
(previous retained op, accumulated log probability).  Self transitions
use `(L - 1) * log T[op, op]` when the learned value is nonzero and the
`FIXED_COSTS` fallback otherwise; the pairwise transition adds
`log T[prev, op]` only when a previous op exists and the learned value
is nonzero. -/
noncomputable def markovStep (T : ℤ → ℤ → ℝ) (N : ℕ) (s : Option ℤ × ℝ)
    (it : ℕ × (ℤ × ℕ)) : Option ℤ × ℝ :=
  if ¬((it.1 = 0 ∨ it.1 = N - 1) ∧ it.2.1 = 4) then
    if it.2.1 ∈ SCORE_OPS then
      (some it.2.1,
        (match s.1 with
         | some p =>
             if T p it.2.1 ≠ 0 then
               (s.2 +
                 (if T it.2.1 it.2.1 ≠ 0 then ((it.2.2 : ℝ) - 1) * Real.log (T it.2.1 it.2.1)
                  else ((it.2.2 : ℝ) - 1) * Real.log ((FIXED_COSTS it.2.1 : ℚ) : ℝ))) +
                 Real.log (T p it.2.1)
             else
               s.2 +
                 (if T it.2.1 it.2.1 ≠ 0 then ((it.2.2 : ℝ) - 1) * Real.log (T it.2.1 it.2.1)
                  else ((it.2.2 : ℝ) - 1) * Real.log ((FIXED_COSTS it.2.1 : ℚ) : ℝ))
         | none =>
             s.2 +
               (if T it.2.1 it.2.1 ≠ 0 then ((it.2.2 : ℝ) - 1) * Real.log (T it.2.1 it.2.1)
                else ((it.2.2 : ℝ) - 1) * Real.log ((FIXED_COSTS it.2.1 : ℚ) : ℝ))))
    else s
  else s

/-- `score_cigar_markov` (lemur.py 519-540): fold the scoring loop over
the enumerated cigar starting from `(None, 0)`. -/
noncomputable def score_cigar_markov (cigar : Cigar) (T : ℤ → ℤ → ℝ) : ℝ :=
  (cigar.enum.foldl (markovStep T cigar.length) (none, 0)).2

/-- Spec-side self-transition score of one retained run. -/
noncomputable def selfTerm (T : ℤ → ℤ → ℝ) (op : ℤ) (L : ℕ) : ℝ :=
  if T op op ≠ 0 then ((L : ℝ) - 1) * Real.log (T op op)
  else ((L : ℝ) - 1) * Real.log ((FIXED_COSTS op : ℚ) : ℝ)

/-- Spec-side pairwise-transition score: `log T[prev, op]` when a
previous retained op exists and the learned value is nonzero, otherwise
no contribution (no fallback for the pairwise term). -/
noncomputable def pairTerm (T : ℤ → ℤ → ℝ) (prev : Option ℤ) (op : ℤ) : ℝ :=
  match prev with
  | some p => if T p op ≠ 0 then Real.log (T p op) else 0
  | none => 0

/-- Spec-side Markov score of a list of retained runs, the previous
retained op made explicit. -/
noncomputable def scoreRuns (T : ℤ → ℤ → ℝ) : Option ℤ → Cigar → ℝ
  | _, [] => 0
  | prev, (op, L) :: rest =>
      selfTerm T op L + pairTerm T prev op + scoreRuns T (some op) rest

/-- The action of the scoring loop on a retained run. -/
noncomputable def scoreAct (T : ℤ → ℤ → ℝ) (s : Option ℤ × ℝ) (t : ℤ × ℕ) :
    Option ℤ × ℝ :=
  (some t.1, s.2 + selfTerm T t.1 t.2 + pairTerm T s.1 t.1)

/-- The action of the counting loop of `build_transition_mat` on a
retained run. -/
def countAct (s : Option ℤ × (ℤ → ℤ → ℤ)) (t : ℤ × ℕ) : Option ℤ × (ℤ → ℤ → ℤ) :=
  (some t.1,
    match s.1 with
    | some p => bumpZ (bumpZ s.2 t.1 t.1 ((t.2 : ℤ) - 1)) p t.1 1
    | none => bumpZ s.2 t.1 t.1 ((t.2 : ℤ) - 1))

/-! ### Fixed-cost and edit scoring models (`build_alignment_model` /
`build_edit_cost`, lemur.py 252-298) -/

/-- `ops_w_cost` of `build_edit_cost` (lemur.py 278): the costed subset
{I, D, X, S, H}. -/
def edit_ops_w_cost : List ℤ := [1, 2, 8, 4, 5]

/-- One step of the accumulation loop of `build_edit_cost`
(lemur.py 286-290): `op_costs[OP] += L; total += L` for costed ops. -/
def editStep (s : (ℤ → ℚ) × ℚ) (t : ℤ × ℕ) : (ℤ → ℚ) × ℚ :=
  if t.1 ∈ edit_ops_w_cost then
    (fun op => if op = t.1 then s.1 op + (t.2 : ℚ) else s.1 op, s.2 + (t.2 : ℚ))
  else s

/-- The accumulation loop of `build_edit_cost` (lemur.py 283-290):
per-op total run length over the costed subset, and the grand total. -/
def edit_counts (cigars : List Cigar) : (ℤ → ℚ) × ℚ :=
  cigars.foldl (fun s cg => cg.foldl editStep s) (fun _ => 0, 0)

/-- Total run length of the runs of `l` with operation `op`. -/
def runTotal (l : Cigar) (op : ℤ) : ℚ :=
  ((l.filter (fun t => decide (t.1 = op))).map (fun t => (t.2 : ℚ))).sum

/-- Total run length of the costed runs of `l`. -/
def costedRunTotal (l : Cigar) : ℚ :=
  ((l.filter (fun t => decide (t.1 ∈ edit_ops_w_cost))).map (fun t => (t.2 : ℚ))).sum

/-- `build_edit_cost` (lemur.py 270-298): costed ops are normalized by
the grand total of costed lengths, non-costed ops get probability 1. -/
def build_edit_cost (cigars : List Cigar) : ℤ → ℚ :=
  fun op =>
    if op ∈ edit_ops_w_cost then (edit_counts cigars).1 op / (edit_counts cigars).2 else 1

/-- The fixed-cost scoring model (`self.fixed_cigar`, lemur.py 261-267):
a hard-coded constant table, independent of the alignment corpus. -/
def fixed_cigar : ℤ → ℚ := fun op =>
  if op = 0 then 1 else if op = 1 then 1/200 else if op = 2 then 1/200
  else if op = 7 then 1 else if op = 8 then 1/100 else if op = 4 then 1/20
  else if op = 5 then 1/100 else 0

/-- Spec-side total run length of operation `op` over a corpus. -/
def specOpTotal (cigars : List Cigar) (op : ℤ) : ℚ :=
  ((cigars.flatten.filter (fun t => decide (t.1 = op))).map (fun t => (t.2 : ℚ))).sum

/-- Spec-side grand total of costed run lengths over a corpus. -/
def specGrandTotal (cigars : List Cigar) : ℚ :=
  (edit_ops_w_cost.map (specOpTotal cigars)).sum

/-! ### Likelihood-table builder record filter (`build_P_rgs_df`, lemur.py 367-397) -/

/-- The fields of one alignment record consumed by `build_P_rgs_df`:
the secondary/supplementary flags, the raw aligner score (`AS` tag) and
the fields copied into the table (the reference-name parsing and
alignment-length computation are collaborator concerns, modelled as
precomputed fields). -/
structure AlnRec where
  query_name : String
  is_secondary : Bool
  is_supplementary : Bool
  AS : ℤ
  target_id : ℕ
  gene : String
  cigar : Cigar
  aln_len : ℕ
deriving DecidableEq

/-- One raw row of the likelihood table before scoring. -/
structure PRgsRow where
  read_id : String
  target_id : ℕ
  gene : String
  cigar : Cigar
  aln_len : ℕ
deriving DecidableEq

/-- The row appended for an accepted alignment record. -/
def toRow (a : AlnRec) : PRgsRow :=
  ⟨a.query_name, a.target_id, a.gene, a.cigar, a.aln_len⟩

/-- The record-admission loop of `build_P_rgs_df` (lemur.py 372-397):
a row is appended exactly when `aln.get_tag("AS") > 0`; the
secondary/supplementary flags are not consulted there. -/
def build_P_rgs_rows (alns : List AlnRec) : List PRgsRow :=
  (alns.filter (fun a => decide (0 < a.AS))).map toRow

/-! ### EM core (`EM_step` / `compute_loglikelihood` / `EM_complete`,
lemur.py 562-679) -/

/-- One row of the deduplicated likelihood table `P_rgs_df` as consumed
by the EM core and the plausibility filter: read id, target id, gene,
and the log likelihood. -/
structure PRow where
  read : String
  tid : ℕ
  gene : String
  logP : ℝ

/-- The inner merge of `EM_step` (lemur.py 565-568): table rows joined
with the abundance series `F` on the target id, keeping `F`'s value. -/
def joinedRows (tbl : List PRow) (F : List (ℕ × ℝ)) : List (PRow × ℝ) :=
  tbl.filterMap (fun row => (F.lookup row.tid).map (fun f => (row, f)))

/-- The per-row weighted log likelihood `log P(r|t) + log F(t)`
(lemur.py 569). -/
noncomputable def weight (j : PRow × ℝ) : ℝ := j.1.logP + Real.log j.2

/-- `LemurRunEnv.logSumExp` (lemur.py 551-559).  Over the reals the max
of a nonempty list is always finite, so the non-finite guard of the
source reduces to the junk default 0 used for the empty list. -/
noncomputable def logSumExp (ns : List ℝ) : ℝ :=
  let m := ns.maximum.unbot' 0
  m + Real.log ((ns.map (fun x => Real.exp (x - m))).sum)

/-- The per-read normalizing constant `P_tgr_sum` (lemur.py 570-571):
log-sum-exp of the weighted log likelihoods of the read's joined rows. -/
noncomputable def readLSE (tbl : List PRow) (F : List (ℕ × ℝ)) (r : String) : ℝ :=
  logSumExp (((joinedRows tbl F).filter (fun j => decide (j.1.read = r))).map weight)

/-- The posterior rows `P(t|r)` (lemur.py 572-577): one row per joined
row, holding read id, target id and `weight - readLSE read`. -/
noncomputable def posteriors (tbl : List PRow) (F : List (ℕ × ℝ)) :
    List (String × ℕ × ℝ) :=
  (joinedRows tbl F).map (fun j => (j.1.read, j.1.tid, weight j - readLSE tbl F j.1.read))

/-- The distinct target ids of the joined table (the groups of the
`groupby("Target_ID")` of lemur.py 583). -/
def targetsOf (tbl : List PRow) (F : List (ℕ × ℝ)) : List ℕ :=
  ((joinedRows tbl F).map (fun j => j.1.tid)).dedup

/-- `n_reads = len(self.P_tgr_sum)` (lemur.py 581): the number of
distinct reads of the joined table. -/
def nReads (tbl : List PRow) (F : List (ℕ × ℝ)) : ℕ :=
  (((joinedRows tbl F).map (fun j => j.1.read)).dedup).length

/-- The new abundance of one target (lemur.py 583-584):
`exp(logSumExp(posteriors of t) - log n_reads)`. -/
noncomputable def newFval (tbl : List PRow) (F : List (ℕ × ℝ)) (t : ℕ) : ℝ :=
  Real.exp
    (logSumExp (((posteriors tbl F).filter (fun p => decide (p.2.1 = t))).map
        (fun p => p.2.2)) -
      Real.log (nReads tbl F))

/-- The maximization step's abundance vector before the zero-drop. -/
noncomputable def EM_step_raw (tbl : List PRow) (F : List (ℕ × ℝ)) : List (ℕ × ℝ) :=
  (targetsOf tbl F).map (fun t => (t, newFval tbl F t))

/-- `EM_step` (lemur.py 562-591): the new abundance vector, entries of
exactly zero mass dropped (`self.F = self.F.loc[self.F != 0]`). -/
noncomputable def EM_step (tbl : List PRow) (F : List (ℕ × ℝ)) : List (ℕ × ℝ) :=
  (EM_step_raw tbl F).filter (fun p => decide (p.2 ≠ 0))

/-- `compute_loglikelihood` (lemur.py 593-594): the sum of the column
`P(r|t)*F(t)_sum` over all rows of `P_tgr` — each joined row contributes
its read's normalizing constant, so a read's constant is counted once
per candidate target. -/
noncomputable def compute_loglikelihood (tbl : List PRow) (F : List (ℕ × ℝ)) : ℝ :=
  ((joinedRows tbl F).map (fun j => readLSE tbl F j.1.read)).sum

/-- The spec's version of the total data log likelihood: the per-read
normalizing constants summed once per distinct read. -/
noncomputable def loglikelihood_by_read (tbl : List PRow) (F : List (ℕ × ℝ)) : ℝ :=
  ((((joinedRows tbl F).map (fun j => j.1.read)).dedup).map (readLSE tbl F)).sum

/-- `self.lli_threshold = 0.01` (lemur.py 73). -/
noncomputable def lli_threshold : ℝ := 1/100

/-- The EM while-loop of `EM_complete` (lemur.py 627-679), fuel-indexed
and returning the number of the iteration at which convergence was
detected.  The state is (remaining fuel, previous log likelihood as an
extended real whose initial value is `-inf`, iteration counter,
abundance vector); per iteration the code runs `EM_step`, reads the
current log likelihood, and stops when the increase over the previous
value is below `lli_threshold`. -/
noncomputable def EM_iters_aux (tbl : List PRow) :
    ℕ → EReal → ℕ → List (ℕ × ℝ) → Option ℕ
  | 0, _, _, _ => none
  | fuel + 1, prev, i, F =>
    if ((compute_loglikelihood tbl F : ℝ) : EReal) - prev < ((lli_threshold : ℝ) : EReal) then
      some i
    else
      EM_iters_aux tbl fuel ((compute_loglikelihood tbl F : ℝ) : EReal) (i + 1) (EM_step tbl F)

/-- The EM loop started, as in the source, with previous log likelihood
`-inf` and iteration counter 1. -/
noncomputable def EM_iters (tbl : List PRow) (F0 : List (ℕ × ℝ)) (fuel : ℕ) : Option ℕ :=
  EM_iters_aux tbl fuel ⊥ 1 F0

/-- The log likelihood reported at iteration `j` (for `j ≥ 1`): the
value computed from the abundance vector entering that iteration. -/
noncomputable def lliSeq (tbl : List PRow) (F0 : List (ℕ × ℝ)) (j : ℕ) : ℝ :=
  compute_loglikelihood tbl ((EM_step tbl)^[j - 1] F0)

/-- The iteration-`j` increase of the (source-shaped) log likelihood,
with the iteration-1 baseline `-inf`. -/
noncomputable def lliDelta (tbl : List PRow) (F0 : List (ℕ × ℝ)) (j : ℕ) : EReal :=
  ((lliSeq tbl F0 j : ℝ) : EReal) -
    (if j = 1 then (⊥ : EReal) else ((lliSeq tbl F0 (j - 1) : ℝ) : EReal))

/-- As `lliSeq`, but for the spec's by-read log likelihood. -/
noncomputable def lliSeqByRead (tbl : List PRow) (F0 : List (ℕ × ℝ)) (j : ℕ) : ℝ :=
  loglikelihood_by_read tbl ((EM_step tbl)^[j - 1] F0)

/-- The iteration-`j` increase of the spec's by-read log likelihood. -/
noncomputable def lliDeltaByRead (tbl : List PRow) (F0 : List (ℕ × ℝ)) (j : ℕ) : EReal :=
  ((lliSeqByRead tbl F0 j : ℝ) : EReal) -
    (if j = 1 then (⊥ : EReal) else ((lliSeqByRead tbl F0 (j - 1) : ℝ) : EReal))

/-! ### Gene-hit plausibility filter (`EM_complete` pre-loop filter and
`get_expected_gene_hits`, lemur.py 601-625 and 682-688) -/

/-- `N_genes_hit` for a target: the number of distinct genes among the
table rows of that target (lemur.py 607). -/
def N_genes_hit (tbl : List PRow) (tid : ℕ) : ℕ :=
  (((tbl.filter (fun r => decide (r.tid = tid))).map PRow.gene).dedup).length

/-- `N_genes` for a target: the number of distinct gene types among the
gene-statistics rows of that target (lemur.py 608). -/
def N_genes_of (gstats : List (ℕ × String)) (tid : ℕ) : ℕ :=
  (((gstats.filter (fun g => decide (g.1 = tid))).map Prod.snd).dedup).length

/-- `N_reads` for a target: the number of distinct reads among the table
rows of that target (lemur.py 609). -/
def N_reads_of (tbl : List PRow) (tid : ℕ) : ℕ :=
  (((tbl.filter (fun r => decide (r.tid = tid))).map PRow.read).dedup).length

/-- `get_expected_gene_hits` (lemur.py 682-688): the expectation and
variance of the number of distinct marker genes hit when `N_reads`
reads each uniformly hit one of `N_genes` genes. -/
def get_expected_gene_hits (N_genes N_reads : ℕ) : ℚ × ℚ :=
  let g : ℚ := N_genes
  (g * (1 - (1 - 1/g) ^ N_reads),
   g * (1 - 1/g) ^ N_reads + g * g * (1 - 1/g) * (1 - 2/g) ^ N_reads -
     g * g * (1 - 1/g) ^ (2 * N_reads))

/-- The expected number of distinct marker genes hit, written as in the
spec: `E = N_genes * (1 - (1 - 1/N_genes)^N_reads)`. -/
def E_spec (N_genes N_reads : ℕ) : ℚ :=
  (N_genes : ℚ) * (1 - (1 - 1 / (N_genes : ℚ)) ^ N_reads)

/-- The per-target decision of the plausibility filter
(lemur.py 610-624): for more than 10 distinct supporting reads, keep iff
`(N_genes_hit / E > 0.7 or E - N_genes_hit <= 3 * variance) and
N_genes_hit > 1`; otherwise keep iff the read count is nonzero. -/
def filter_keep (tbl : List PRow) (gstats : List (ℕ × String)) (tid : ℕ) : Bool :=
  let nh := N_genes_hit tbl tid
  let ng := N_genes_of gstats tid
  let nr := N_reads_of tbl tid
  if 10 < nr then
    let EV := get_expected_gene_hits ng nr
    decide ((((nh : ℚ) / EV.1 > 7/10) ∨ EV.1 - (nh : ℚ) ≤ 3 * EV.2) ∧ 1 < nh)
  else
    decide (nr ≠ 0)

/-- The plausibility filter applied to the abundance vector
(`self.F = self.F.loc[filter_pass]`, lemur.py 601-625). -/
def EM_complete_filter (tbl : List PRow) (gstats : List (ℕ × String))
    (F : List (ℕ × ℝ)) : List (ℕ × ℝ) :=
  F.filter (fun p => filter_keep tbl gstats p.1)

/-! ### Pipeline order and the rank-validation check
(`collapse_rank` / `EM_complete` / `main`, lemur.py 698-701, 672-675,
721-757).  The control flow of `main` is modelled as the list of
pipeline events that execute before the process stops. -/

/-- The observable pipeline steps of `main` and the error event raised
by `collapse_rank` on an unrecognized rank. -/
inductive PipelineEvent where
  | runAligner
  | initTaxonomy
  | initF
  | buildAlignmentModel
  | buildPRgsDf
  | emIterations
  | freqToLineage
  | collapseRank
  | configError (msg : String)
deriving DecidableEq

/-- The message of the `ValueError` raised by `collapse_rank`
(lemur.py 700-701): it lists the recognized ranks and does not echo the
invalid value. -/
def collapse_rank_error_msg : String :=
  "Specified rank must be in list: ['species', 'genus', 'family', 'order', 'class', 'phylum', 'clade', 'superkingdom']"

/-- The rank check at the top of `collapse_rank` (lemur.py 700-701). -/
def collapse_rank_events (rank : String) : List PipelineEvent :=
  if rank ∈ TAXONOMY_RANKS then [PipelineEvent.collapseRank]
  else [PipelineEvent.configError collapse_rank_error_msg]

/-- The events of `EM_complete` (lemur.py 597-679): the EM iterations
run first; on convergence `freq_to_lineage_df` and then `collapse_rank`
execute — the rank is validated only there. -/
def EM_complete_events (rank : String) : List PipelineEvent :=
  [PipelineEvent.emIterations, PipelineEvent.freqToLineage] ++ collapse_rank_events rank

/-- The events of `main` (lemur.py 721-757): alignment (unless a SAM
file is supplied), taxonomy and abundance initialization, model
building, likelihood-table construction, then `EM_complete`; when
`EM_complete` raises, the process stops, otherwise `main` repeats
`freq_to_lineage_df` and `collapse_rank`. -/
def main_events (samInput : Bool) (rank : String) : List PipelineEvent :=
  (if samInput then [] else [PipelineEvent.runAligner]) ++
    [PipelineEvent.initTaxonomy, PipelineEvent.initF, PipelineEvent.buildAlignmentModel,
      PipelineEvent.buildPRgsDf] ++
    EM_complete_events rank ++
    (if rank ∈ TAXONOMY_RANKS then
      [PipelineEvent.freqToLineage] ++ collapse_rank_events rank
     else [])

/-- Does an event report a configuration error? -/
def isConfigError : PipelineEvent → Bool
  | PipelineEvent.configError _ => true
  | _ => false

/-! ### Concrete instances used as witnesses and counterexamples -/

/-- A likelihood table for the C4 scenario: five distinct reads, all
supporting target 1 through the single marker gene RpsE. -/
noncomputable def tblC4 : List PRow :=
  [⟨"r1", 1, "RpsE", 0⟩, ⟨"r2", 1, "RpsE", 0⟩, ⟨"r3", 1, "RpsE", 0⟩,
   ⟨"r4", 1, "RpsE", 0⟩, ⟨"r5", 1, "RpsE", 0⟩]

/-- Gene statistics for the C4 scenario: target 1 has ten marker
genes. -/
def gstatsC4 : List (ℕ × String) :=
  [(1, "RpsE"), (1, "RpsG"), (1, "RpoA"), (1, "RplK"), (1, "RpsQ"),
   (1, "RplA"), (1, "TsaD"), (1, "RpsK"), (1, "LeuS"), (1, "RpsS")]

/-- An abundance vector whose support is the single target 1. -/
noncomputable def FC4 : List (ℕ × ℝ) := [(1, 1)]

/-- A secondary alignment record with a positive raw aligner score. -/
def secAln : AlnRec :=
  ⟨"read1", true, false, 10, 5, "RpsE", [(0, 100)], 100⟩

/-- A two-candidate likelihood-table row: read A against target 1 with
`log P = 0`. -/
noncomputable def rowA1 : PRow := ⟨"A", 1, "RpsE", 0⟩

/-- Read A against target 2 with `log P = log (27/23)`. -/
noncomputable def rowA2 : PRow := ⟨"A", 2, "RpsE", Real.log (27/23)⟩

/-- A likelihood table with one read and two candidate targets. -/
noncomputable def tblC : List PRow := [rowA1, rowA2]

/-- The uniform initial abundance vector on targets 1 and 2. -/
noncomputable def F0C : List (ℕ × ℝ) := [(1, 1/2), (2, 1/2)]

/-- The abundance vector after one EM step on `tblC` from `F0C`. -/
noncomputable def F1C : List (ℕ × ℝ) := [(1, 23/50), (2, 27/50)]

/-- A small corpus of cigars with positive run lengths. -/
def cigsW : List Cigar := [[(0, 2), (1, 3), (4, 1)], [(4, 2), (8, 1)]]

/-- A cigar consisting only of Match runs. -/
def matchCigar : Cigar := [(0, 5), (0, 3)]

/-- The all-zero transition matrix. -/
noncomputable def Tzero : ℤ → ℤ → ℝ := fun _ _ => 0

/-! ## Generic list lemmas -/

theorem list_sum_map_zero {κ M : Type _} [AddCommMonoid M] (ks : List κ) :
    (ks.map (fun _ => (0 : M))).sum = 0 := by
  induction ks with
  | nil => rfl
  | cons k ks ih => simp [ih]

theorem list_sum_map_add {κ M : Type _} [AddCommMonoid M] (ks : List κ) (f g : κ → M) :
    (ks.map (fun k => f k + g k)).sum = (ks.map f).sum + (ks.map g).sum := by
  induction ks with
  | nil => simp
  | cons k ks ih =>
      simp only [List.map_cons, List.sum_cons, ih]
      abel

theorem list_sum_ite_key {κ M : Type _} [DecidableEq κ] [AddCommMonoid M]
    (c : κ) (v : M) : ∀ ks : List κ, ks.Nodup →
      (ks.map (fun k => if c = k then v else 0)).sum = if c ∈ ks then v else 0 := by
  intro ks
  induction ks with
  | nil => simp
  | cons k ks ih =>
      intro hnd
      rcases List.nodup_cons.mp hnd with ⟨hk, hnd'⟩
      by_cases h : c = k
      · subst h
        have hzero : (ks.map (fun k' => if c = k' then v else 0)).sum = 0 := by
          rw [ih hnd', if_neg hk]
        simp [hzero]
      · simp only [List.map_cons, List.sum_cons, if_neg h, zero_add, ih hnd',
          List.mem_cons]
        have : (c ∈ ks ∨ c = k) ↔ c ∈ ks := by tauto
        by_cases hm : c ∈ ks
        · simp [hm, h]
        · simp [hm, h]

/-- Fiberwise summation over an explicit, duplicate-free key list: the
sum over keys of the fiber sums equals the sum over the elements whose
key belongs to the list. -/
theorem sum_fiber_keys {α κ M : Type _} [DecidableEq κ] [AddCommMonoid M]
    (key : α → κ) (f : α → M) :
    ∀ (l : List α) (ks : List κ), ks.Nodup →
      (ks.map (fun k => ((l.filter (fun x => decide (key x = k))).map f).sum)).sum =
        ((l.filter (fun x => decide (key x ∈ ks))).map f).sum := by
  intro l
  induction l with
  | nil => intro ks _; simp [list_sum_map_zero]
  | cons x l ih =>
      intro ks hnd
      have hsplit : ∀ k : κ,
          (((x :: l).filter (fun y => decide (key y = k))).map f).sum =
            (if key x = k then f x else 0) +
              ((l.filter (fun y => decide (key y = k))).map f).sum := by
        intro k
        by_cases h : key x = k
        · simp [List.filter_cons, h]
        · simp [List.filter_cons, h]
      calc (ks.map (fun k => (((x :: l).filter (fun y => decide (key y = k))).map f).sum)).sum
          = (ks.map (fun k => (if key x = k then f x else 0) +
              ((l.filter (fun y => decide (key y = k))).map f).sum)).sum := by
            refine congrArg List.sum (List.map_congr_left ?_)
            intro k _
            exact hsplit k
        _ = (if key x ∈ ks then f x else 0) +
              ((l.filter (fun y => decide (key y ∈ ks))).map f).sum := by
            rw [list_sum_map_add, list_sum_ite_key _ _ ks hnd, ih ks hnd]
        _ = (((x :: l).filter (fun y => decide (key y ∈ ks))).map f).sum := by
            by_cases h : key x ∈ ks
            · simp [List.filter_cons, h]
            · simp [List.filter_cons, h]

/-- Fiberwise summation over the deduplicated keys of the list itself. -/
theorem sum_fiber_dedup {α κ M : Type _} [DecidableEq κ] [AddCommMonoid M]
    (key : α → κ) (f : α → M) (l : List α) :
    (((l.map key).dedup).map
        (fun k => ((l.filter (fun x => decide (key x = k))).map f).sum)).sum =
      (l.map f).sum := by
  rw [sum_fiber_keys key f l ((l.map key).dedup) (List.nodup_dedup _)]
  have : l.filter (fun x => decide (key x ∈ (l.map key).dedup)) = l := by
    refine List.filter_eq_self.mpr ?_
    intro a ha
    simpa using List.mem_dedup.mpr (List.mem_map_of_mem key ha)
  rw [this]

/-- A key taken from the deduplicated key list has a nonempty fiber. -/
theorem fiber_ne_nil {α κ : Type _} [DecidableEq κ] (key : α → κ) (l : List α) (k : κ)
    (hk : k ∈ (l.map key).dedup) :
    l.filter (fun x => decide (key x = k)) ≠ [] := by
  rcases List.mem_map.mp (List.mem_dedup.mp hk) with ⟨x, hx, hkey⟩
  intro hnil
  have : x ∈ l.filter (fun y => decide (key y = k)) :=
    List.mem_filter.mpr ⟨hx, by simpa using hkey⟩
  rw [hnil] at this
  exact List.not_mem_nil x this

theorem list_sum_map_div {κ α : Type _} [DivisionRing α] (l : List κ) (f : κ → α) (d : α) :
    (l.map (fun k => f k / d)).sum = (l.map f).sum / d := by
  induction l with
  | nil => simp
  | cons k l ih => simp [ih, add_div]

theorem list_sum_int_cast {κ : Type _} (l : List κ) (g : κ → ℤ) :
    (l.map (fun k => ((g k : ℤ) : ℚ))).sum = (((l.map g).sum : ℤ) : ℚ) := by
  induction l with
  | nil => simp
  | cons k l ih => simp [ih]

/-! ## C3, C4: the gene-hit plausibility filter -/

/-- C3: a taxon of `F`'s support with more than 10 distinct supporting
reads is retained by the plausibility filter iff
`(N_genes_hit / E > 0.7 or E - N_genes_hit <= 3 * V) and N_genes_hit > 1`
with `E = N_genes * (1 - (1 - 1/N_genes)^N_reads)` and `V` the
corresponding variance; a taxon with at most 10 supporting reads is
retained iff at least one read supports it. -/
theorem C3_plausibility_filter (tbl : List PRow) (gstats : List (ℕ × String))
    (F : List (ℕ × ℝ)) (tid : ℕ) :
    (∃ v, (tid, v) ∈ EM_complete_filter tbl gstats F) ↔
      ((∃ v, (tid, v) ∈ F) ∧
        (if 10 < N_reads_of tbl tid then
          (((N_genes_hit tbl tid : ℚ) /
                E_spec (N_genes_of gstats tid) (N_reads_of tbl tid) > 7/10) ∨
            (E_spec (N_genes_of gstats tid) (N_reads_of tbl tid) -
                (N_genes_hit tbl tid : ℚ) ≤
              3 * (get_expected_gene_hits (N_genes_of gstats tid) (N_reads_of tbl tid)).2)) ∧
            1 < N_genes_hit tbl tid
         else 1 ≤ N_reads_of tbl tid)) := by
  have hmem : (∃ v, (tid, v) ∈ EM_complete_filter tbl gstats F) ↔
      (∃ v, (tid, v) ∈ F) ∧ filter_keep tbl gstats tid = true := by
    unfold EM_complete_filter
    constructor
    · rintro ⟨v, hv⟩
      rw [List.mem_filter] at hv
      exact ⟨⟨v, hv.1⟩, hv.2⟩
    · rintro ⟨⟨v, hv⟩, hk⟩
      exact ⟨v, List.mem_filter.mpr ⟨hv, hk⟩⟩
  rw [hmem]
  refine and_congr_right fun _ => ?_
  unfold filter_keep
  by_cases h : 10 < N_reads_of tbl tid
  · simp only [if_pos h, get_expected_gene_hits, E_spec, decide_eq_true_eq]
  · simp only [if_neg h, decide_eq_true_eq, Nat.one_le_iff_ne_zero]

/-- C4 counterexample: a taxon with exactly 5 supporting reads, all on
one marker gene out of 10, is *retained* by the plausibility filter,
not rejected: the `<=10 reads` lenient branch applies. -/
theorem C4_counterexample :
    N_reads_of tblC4 1 = 5 ∧ N_genes_hit tblC4 1 = 1 ∧ N_genes_of gstatsC4 1 = 10 ∧
      1 ∈ (EM_complete_filter tblC4 gstatsC4 FC4).map Prod.fst := by
  refine ⟨?_, ?_, ?_, ?_⟩ <;> decide

/-- C4 (amended): a taxon of `F`'s support with at most 10 but at least
one distinct supporting read is always retained by the plausibility
filter, regardless of how few distinct genes its reads hit. -/
theorem C4_amended (tbl : List PRow) (gstats : List (ℕ × String)) (F : List (ℕ × ℝ))
    (tid : ℕ) (h1 : tid ∈ F.map Prod.fst) (h2 : N_reads_of tbl tid ≤ 10)
    (h3 : 1 ≤ N_reads_of tbl tid) :
    tid ∈ (EM_complete_filter tbl gstats F).map Prod.fst := by
  rcases List.mem_map.mp h1 with ⟨p, hp, hfst⟩
  refine List.mem_map.mpr ⟨p, ?_, hfst⟩
  refine List.mem_filter.mpr ⟨hp, ?_⟩
  rw [hfst]
  unfold filter_keep
  rw [if_neg (by omega)]
  simpa using by omega

/-- C4 witness: the amended statement holds on the concrete five-read,
single-gene scenario. -/
theorem C4_witness :
    1 ∈ (EM_complete_filter tblC4 gstatsC4 FC4).map Prod.fst :=
  C4_amended tblC4 gstatsC4 FC4 1 (by decide) (by decide) (by decide)

/-! ## C5: the record filter of `build_P_rgs_df` -/

/-- C5 counterexample: a secondary alignment record with positive raw
score does contribute a row to the likelihood table, contradicting the
claim that secondary records contribute no row. -/
theorem C5_counterexample :
    secAln.is_secondary = true ∧ 0 < secAln.AS ∧
      build_P_rgs_rows [secAln] = [toRow secAln] := by
  refine ⟨rfl, by decide, rfl⟩

/-- C5 (amended): `build_P_rgs_df` admits an alignment record iff its
raw aligner score is strictly positive; the secondary and supplementary
flags are not consulted. -/
theorem C5_amended (alns : List AlnRec) (r : PRgsRow) :
    r ∈ build_P_rgs_rows alns ↔ ∃ a ∈ alns, 0 < a.AS ∧ r = toRow a := by
  unfold build_P_rgs_rows
  constructor
  · intro hr
    rcases List.mem_map.mp hr with ⟨a, ha, hrow⟩
    rw [List.mem_filter] at ha
    exact ⟨a, ha.1, by simpa using ha.2, hrow.symm⟩
  · rintro ⟨a, ha, hAS, rfl⟩
    exact List.mem_map.mpr ⟨a, List.mem_filter.mpr ⟨ha, by simpa using hAS⟩, rfl⟩

/-! ## C9: rank validation happens after the EM work -/

/-- C9 counterexample: with the unrecognized rank "strain", the EM
iterations event occurs strictly before the configuration error — the
run does not fail before scoring and EM work begins. -/
theorem C9_counterexample :
    "strain" ∉ TAXONOMY_RANKS ∧
      PipelineEvent.emIterations ∈
        (main_events false "strain").takeWhile (fun e => !isConfigError e) ∧
      PipelineEvent.buildPRgsDf ∈
        (main_events false "strain").takeWhile (fun e => !isConfigError e) ∧
      PipelineEvent.configError collapse_rank_error_msg ∈ main_events false "strain" := by
  refine ⟨?_, ?_, ?_, ?_⟩ <;> decide

/-- C9 (amended): an unrecognized rank does raise a `ValueError` whose
message lists the recognized ranks (without echoing the invalid value),
but only from `collapse_rank` at the end of `EM_complete`, after the
model building, the likelihood-table construction and the EM iterations
have all executed. -/
theorem C9_amended (samInput : Bool) (rank : String) (h : rank ∉ TAXONOMY_RANKS) :
    main_events samInput rank =
      (if samInput then [] else [PipelineEvent.runAligner]) ++
        [PipelineEvent.initTaxonomy, PipelineEvent.initF,
          PipelineEvent.buildAlignmentModel, PipelineEvent.buildPRgsDf,
          PipelineEvent.emIterations, PipelineEvent.freqToLineage,
          PipelineEvent.configError collapse_rank_error_msg] := by
  unfold main_events EM_complete_events collapse_rank_events
  rw [if_neg h, if_neg h]
  simp

/-- C9 witness: the amended statement evaluated with the invalid rank
"strain" and a supplied SAM file. -/
theorem C9_witness :
    main_events true "strain" =
      [PipelineEvent.initTaxonomy, PipelineEvent.initF,
        PipelineEvent.buildAlignmentModel, PipelineEvent.buildPRgsDf,
        PipelineEvent.emIterations, PipelineEvent.freqToLineage,
        PipelineEvent.configError collapse_rank_error_msg] := by
  rw [C9_amended true "strain" (by decide)]
  rfl

/-! ## Log-sum-exp facts (exact-real model) -/

theorem list_sum_map_one {κ : Type _} (ks : List κ) :
    (ks.map (fun _ => (1 : ℝ))).sum = (ks.length : ℝ) := by
  induction ks with
  | nil => simp
  | cons k ks ih => simp [ih]; ring

theorem sum_exp_shift (ns : List ℝ) (m : ℝ) :
    ((ns.map (fun x => Real.exp (x - m))).sum) = Real.exp (-m) * ((ns.map Real.exp).sum) := by
  induction ns with
  | nil => simp
  | cons x ns ih =>
      simp only [List.map_cons, List.sum_cons, ih]
      rw [sub_eq_add_neg, Real.exp_add]
      ring

theorem sum_map_exp_pos (ns : List ℝ) (h : ns ≠ []) : 0 < (ns.map Real.exp).sum := by
  cases ns with
  | nil => exact absurd rfl h
  | cons x ns =>
      simp only [List.map_cons, List.sum_cons]
      have h1 : 0 < Real.exp x := Real.exp_pos x
      have h2 : 0 ≤ (ns.map Real.exp).sum :=
        List.sum_nonneg (by
          intro y hy
          rcases List.mem_map.mp hy with ⟨z, _, rfl⟩
          exact (Real.exp_pos z).le)
      linarith

theorem exp_logSumExp (ns : List ℝ) (h : ns ≠ []) :
    Real.exp (logSumExp ns) = (ns.map Real.exp).sum := by
  unfold logSumExp
  have hshift := sum_exp_shift ns (ns.maximum.unbot' 0)
  have hT : 0 < (ns.map Real.exp).sum := sum_map_exp_pos ns h
  have hS : 0 < (ns.map (fun x => Real.exp (x - ns.maximum.unbot' 0))).sum := by
    rw [hshift]
    exact mul_pos (Real.exp_pos _) hT
  rw [Real.exp_add, Real.exp_log hS, hshift, ← mul_assoc, ← Real.exp_add]
  rw [add_neg_cancel, Real.exp_zero, one_mul]

theorem logSumExp_eq_log (ns : List ℝ) (h : ns ≠ []) :
    logSumExp ns = Real.log ((ns.map Real.exp).sum) := by
  rw [← exp_logSumExp ns h, Real.log_exp]

theorem logSumExp_singleton (x : ℝ) : logSumExp [x] = x := by
  rw [logSumExp_eq_log [x] (by simp)]
  simp [Real.log_exp]

/-! ## C1: the maximization step produces a probability vector -/

theorem filter_ne_zero_map_snd_sum :
    ∀ l : List (ℕ × ℝ),
      (((l.filter (fun p => decide (p.2 ≠ 0))).map Prod.snd).sum) =
        ((l.map Prod.snd).sum) := by
  intro l
  induction l with
  | nil => rfl
  | cons p l ih =>
      rw [List.filter_cons]
      by_cases hz : p.2 = 0
      · rw [if_neg (by simp [hz]), ih, List.map_cons, List.sum_cons, hz, zero_add]
      · rw [if_pos (by simp [hz]), List.map_cons, List.sum_cons, List.map_cons,
          List.sum_cons, ih]

theorem posteriors_keys (tbl : List PRow) (F : List (ℕ × ℝ)) :
    (posteriors tbl F).map (fun p => p.2.1) =
      (joinedRows tbl F).map (fun j => j.1.tid) := by
  unfold posteriors
  rw [List.map_map]
  rfl

/-- The fiber of posterior values of one target, exponentiated and
summed. -/
theorem newFval_eq_fiber_div (tbl : List PRow) (F : List (ℕ × ℝ)) (t : ℕ)
    (ht : t ∈ targetsOf tbl F) (hn : nReads tbl F ≠ 0) :
    newFval tbl F t =
      (((posteriors tbl F).filter (fun p => decide (p.2.1 = t))).map
          (fun p => Real.exp p.2.2)).sum / (nReads tbl F : ℝ) := by
  unfold newFval
  have hfib : (posteriors tbl F).filter (fun p => decide (p.2.1 = t)) ≠ [] := by
    apply fiber_ne_nil (fun p : String × ℕ × ℝ => p.2.1) (posteriors tbl F) t
    rw [posteriors_keys]
    exact ht
  have hmapne :
      ((posteriors tbl F).filter (fun p => decide (p.2.1 = t))).map (fun p => p.2.2) ≠ [] := by
    intro hmap
    exact hfib (List.map_eq_nil_iff.mp hmap)
  rw [Real.exp_sub, exp_logSumExp _ hmapne, List.map_map]
  rw [Real.exp_log (by
    have : 0 < nReads tbl F := Nat.pos_of_ne_zero hn
    exact_mod_cast this)]
  rfl

/-- Every read fiber of the posterior table has total posterior
probability 1. -/
theorem read_fiber_sum_one (tbl : List PRow) (F : List (ℕ × ℝ)) (r : String)
    (hr : r ∈ ((joinedRows tbl F).map (fun j => j.1.read)).dedup) :
    (((joinedRows tbl F).filter (fun j => decide (j.1.read = r))).map
        (fun j => Real.exp (weight j - readLSE tbl F j.1.read))).sum = 1 := by
  set fib := (joinedRows tbl F).filter (fun j => decide (j.1.read = r)) with hfibdef
  have hfib : fib ≠ [] :=
    fiber_ne_nil (fun j : PRow × ℝ => j.1.read) (joinedRows tbl F) r hr
  have hcongr :
      fib.map (fun j => Real.exp (weight j - readLSE tbl F j.1.read)) =
        fib.map (fun j => Real.exp (weight j - readLSE tbl F r)) := by
    refine List.map_congr_left ?_
    intro j hj
    have := of_decide_eq_true (List.mem_filter.mp hj).2
    rw [this]
  rw [hcongr]
  have hmm : fib.map (fun j => Real.exp (weight j - readLSE tbl F r)) =
      (fib.map weight).map (fun x => Real.exp (x - readLSE tbl F r)) := by
    rw [List.map_map]
    rfl
  rw [hmm, sum_exp_shift]
  have hwne : fib.map weight ≠ [] := by
    intro hmap
    exact hfib (List.map_eq_nil_iff.mp hmap)
  have hC : Real.exp (readLSE tbl F r) = ((fib.map weight).map Real.exp).sum := by
    unfold readLSE
    exact exp_logSumExp _ hwne
  have hTpos : 0 < ((fib.map weight).map Real.exp).sum := sum_map_exp_pos _ hwne
  rw [Real.exp_neg, hC, inv_mul_cancel₀ (ne_of_gt hTpos)]

/-- C1: after every maximization step the new abundance vector — each
entry `exp(logSumExp(posteriors of target) - log n_reads)` — sums to
exactly 1, and its support is the raw vector with all exactly-zero
entries dropped (so every surviving entry is nonzero). -/
theorem C1_EM_step_sums_to_one (tbl : List PRow) (F : List (ℕ × ℝ))
    (h : joinedRows tbl F ≠ []) :
    ((EM_step tbl F).map Prod.snd).sum = 1 ∧
      (∀ p ∈ EM_step tbl F, p.2 ≠ 0) ∧
      (∀ p : ℕ × ℝ, p ∈ EM_step tbl F ↔ p ∈ EM_step_raw tbl F ∧ p.2 ≠ 0) := by
  have hreads : ((joinedRows tbl F).map (fun j => j.1.read)).dedup ≠ [] := by
    intro hd
    exact h (by
      have hmapnil : (joinedRows tbl F).map (fun j => j.1.read) = [] := by
        have := (List.dedup_eq_nil _).mp hd
        exact this
      exact List.map_eq_nil_iff.mp hmapnil)
  have hn : nReads tbl F ≠ 0 := by
    unfold nReads
    intro h0
    exact hreads (List.length_eq_zero.mp h0)
  have hnR : (nReads tbl F : ℝ) ≠ 0 := Nat.cast_ne_zero.mpr hn
  refine ⟨?_, ?_, ?_⟩
  · -- the sum
    unfold EM_step
    rw [filter_ne_zero_map_snd_sum]
    unfold EM_step_raw
    rw [List.map_map]
    have hcomp : (Prod.snd ∘ fun t => (t, newFval tbl F t)) = newFval tbl F := rfl
    rw [hcomp]
    have hvals : (targetsOf tbl F).map (newFval tbl F) =
        (targetsOf tbl F).map (fun t =>
          (((posteriors tbl F).filter (fun p => decide (p.2.1 = t))).map
              (fun p => Real.exp p.2.2)).sum / (nReads tbl F : ℝ)) :=
      List.map_congr_left (fun t ht => newFval_eq_fiber_div tbl F t ht hn)
    rw [hvals, list_sum_map_div]
    have htargets : targetsOf tbl F = ((posteriors tbl F).map (fun p => p.2.1)).dedup := by
      unfold targetsOf
      rw [posteriors_keys]
    rw [htargets,
      sum_fiber_dedup (fun p : String × ℕ × ℝ => p.2.1) (fun p => Real.exp p.2.2)
        (posteriors tbl F)]
    have hpost : (posteriors tbl F).map (fun p => Real.exp p.2.2) =
        (joinedRows tbl F).map
          (fun j => Real.exp (weight j - readLSE tbl F j.1.read)) := by
      unfold posteriors
      rw [List.map_map]
      rfl
    rw [hpost]
    rw [← sum_fiber_dedup (fun j : PRow × ℝ => j.1.read)
          (fun j => Real.exp (weight j - readLSE tbl F j.1.read)) (joinedRows tbl F)]
    have hones :
        (((joinedRows tbl F).map (fun j => j.1.read)).dedup).map
            (fun r =>
              (((joinedRows tbl F).filter (fun j => decide (j.1.read = r))).map
                  (fun j => Real.exp (weight j - readLSE tbl F j.1.read))).sum) =
          (((joinedRows tbl F).map (fun j => j.1.read)).dedup).map (fun _ => (1 : ℝ)) :=
      List.map_congr_left (fun r hr => read_fiber_sum_one tbl F r hr)
    rw [hones, list_sum_map_one]
    unfold nReads at hnR ⊢
    exact div_self hnR
  · -- surviving entries are nonzero
    intro p hp
    exact of_decide_eq_true (List.mem_filter.mp hp).2
  · -- support characterization
    intro p
    unfold EM_step
    rw [List.mem_filter]
    constructor
    · rintro ⟨h1, h2⟩
      exact ⟨h1, of_decide_eq_true h2⟩
    · rintro ⟨h1, h2⟩
      exact ⟨h1, decide_eq_true h2⟩

/-! ## C8: the edit model is the accumulated one; the fixed-cost model
is a constant table -/

theorem editStep_fst (s : (ℤ → ℚ) × ℚ) (t : ℤ × ℕ) (op : ℤ) :
    (editStep s t).1 op =
      s.1 op + (if op = t.1 ∧ t.1 ∈ edit_ops_w_cost then (t.2 : ℚ) else 0) := by
  unfold editStep
  by_cases hc : t.1 ∈ edit_ops_w_cost
  · rw [if_pos hc]
    by_cases he : op = t.1
    · simp [he, hc]
    · simp [he, hc]
  · simp [hc]

theorem editStep_snd (s : (ℤ → ℚ) × ℚ) (t : ℤ × ℕ) :
    (editStep s t).2 = s.2 + (if t.1 ∈ edit_ops_w_cost then (t.2 : ℚ) else 0) := by
  unfold editStep
  by_cases hc : t.1 ∈ edit_ops_w_cost
  · simp [hc]
  · simp [hc]

theorem foldl_editStep_fst (op : ℤ) (hop : op ∈ edit_ops_w_cost) :
    ∀ (l : Cigar) (s : (ℤ → ℚ) × ℚ),
      (l.foldl editStep s).1 op = s.1 op + runTotal l op := by
  intro l
  induction l with
  | nil => intro s; simp [runTotal]
  | cons t l ih =>
      intro s
      rw [List.foldl_cons, ih, editStep_fst]
      have : runTotal (t :: l) op =
          (if op = t.1 ∧ t.1 ∈ edit_ops_w_cost then (t.2 : ℚ) else 0) + runTotal l op := by
        unfold runTotal
        by_cases he : t.1 = op
        · subst he
          simp [List.filter_cons, hop]
        · have : ¬(op = t.1 ∧ t.1 ∈ edit_ops_w_cost) := by
            rintro ⟨h1, _⟩; exact he h1.symm
          simp [List.filter_cons, he, this]
      rw [this]
      ring

theorem foldl_editStep_snd :
    ∀ (l : Cigar) (s : (ℤ → ℚ) × ℚ),
      (l.foldl editStep s).2 = s.2 + costedRunTotal l := by
  intro l
  induction l with
  | nil => intro s; simp [costedRunTotal]
  | cons t l ih =>
      intro s
      rw [List.foldl_cons, ih, editStep_snd]
      have : costedRunTotal (t :: l) =
          (if t.1 ∈ edit_ops_w_cost then (t.2 : ℚ) else 0) + costedRunTotal l := by
        unfold costedRunTotal
        by_cases hc : t.1 ∈ edit_ops_w_cost
        · simp [List.filter_cons, hc]
        · simp [List.filter_cons, hc]
      rw [this]
      ring

theorem edit_counts_fst_aux (op : ℤ) (hop : op ∈ edit_ops_w_cost) :
    ∀ (cigars : List Cigar) (s : (ℤ → ℚ) × ℚ),
      ((cigars.foldl (fun s cg => cg.foldl editStep s) s).1 op) =
        s.1 op + (cigars.map (fun cg => runTotal cg op)).sum := by
  intro cigars
  induction cigars with
  | nil => intro s; simp
  | cons cg cigars ih =>
      intro s
      rw [List.foldl_cons, ih, foldl_editStep_fst op hop]
      simp only [List.map_cons, List.sum_cons]
      ring

theorem edit_counts_snd_aux :
    ∀ (cigars : List Cigar) (s : (ℤ → ℚ) × ℚ),
      ((cigars.foldl (fun s cg => cg.foldl editStep s) s).2) =
        s.2 + (cigars.map costedRunTotal).sum := by
  intro cigars
  induction cigars with
  | nil => intro s; simp
  | cons cg cigars ih =>
      intro s
      rw [List.foldl_cons, ih, foldl_editStep_snd]
      simp only [List.map_cons, List.sum_cons]
      ring

theorem specOpTotal_eq (cigars : List Cigar) (op : ℤ) :
    specOpTotal cigars op = (cigars.map (fun cg => runTotal cg op)).sum := by
  unfold specOpTotal runTotal
  induction cigars with
  | nil => simp
  | cons cg cigars ih =>
      simp only [List.flatten_cons, List.filter_append, List.map_append,
        List.sum_append, List.map_cons, List.sum_cons, ih]

theorem costedRunTotal_flatten (cigars : List Cigar) :
    costedRunTotal cigars.flatten = (cigars.map costedRunTotal).sum := by
  unfold costedRunTotal
  induction cigars with
  | nil => simp
  | cons cg cigars ih =>
      simp only [List.flatten_cons, List.filter_append, List.map_append,
        List.sum_append, List.map_cons, List.sum_cons, ih]

theorem specGrandTotal_eq (cigars : List Cigar) :
    specGrandTotal cigars = (cigars.map costedRunTotal).sum := by
  have hflat : specGrandTotal cigars = costedRunTotal cigars.flatten := by
    simp only [specGrandTotal, costedRunTotal, specOpTotal]
    exact sum_fiber_keys (fun t : ℤ × ℕ => t.1) (fun t : ℤ × ℕ => (t.2 : ℚ))
      cigars.flatten edit_ops_w_cost (by decide)
  rw [hflat, costedRunTotal_flatten]

theorem edit_counts_fst (cigars : List Cigar) (op : ℤ) (hop : op ∈ edit_ops_w_cost) :
    (edit_counts cigars).1 op = specOpTotal cigars op := by
  unfold edit_counts
  rw [edit_counts_fst_aux op hop, specOpTotal_eq]
  simp

theorem edit_counts_snd (cigars : List Cigar) :
    (edit_counts cigars).2 = specGrandTotal cigars := by
  unfold edit_counts
  rw [edit_counts_snd_aux, specGrandTotal_eq]
  simp

/-- C8 (amended): the *edit* scoring model (`aln_score == "edit"`) is
the one built by accumulating total run length per operation over the
costed subset {I, D, X, S, H}, normalizing by the grand total of costed
lengths, and giving non-costed operations probability 1; the fixed-cost
model is the hard-coded constant table of `build_alignment_model`. -/
theorem C8_amended (cigars : List Cigar) (op : ℤ) :
    build_edit_cost cigars op =
      (if op ∈ edit_ops_w_cost then specOpTotal cigars op / specGrandTotal cigars else 1) ∧
      fixed_cigar 1 = 1/200 ∧ fixed_cigar 4 = 1/20 ∧ fixed_cigar 5 = 1/100 := by
  refine ⟨?_, rfl, rfl, rfl⟩
  unfold build_edit_cost
  by_cases hop : op ∈ edit_ops_w_cost
  · rw [if_pos hop, if_pos hop, edit_counts_fst cigars op hop, edit_counts_snd]
  · rw [if_neg hop, if_neg hop]

/-! ## Fold bookkeeping shared by the Markov builder and scorer -/

theorem foldl_of_filter {α σ : Type _} (p : α → Bool) (g : σ → α → σ)
    (hg : ∀ s a, p a = false → g s a = s) :
    ∀ (l : List α) (s : σ), l.foldl g s = (l.filter p).foldl g s := by
  intro l
  induction l with
  | nil => intro s; rfl
  | cons a l ih =>
      intro s
      cases hpa : p a with
      | false => simp [List.filter_cons, hpa, hg s a hpa, ih]
      | true => simp [List.filter_cons, hpa, ih]

theorem foldl_congr_mem {α σ : Type _} (g g' : σ → α → σ) :
    ∀ l : List α, (∀ s a, a ∈ l → g s a = g' s a) → ∀ s, l.foldl g s = l.foldl g' s := by
  intro l
  induction l with
  | nil => intro _ s; rfl
  | cons a l ih =>
      intro h s
      rw [List.foldl_cons, List.foldl_cons, h s a (List.mem_cons_self a l)]
      exact ih (fun s' b hb => h s' b (List.mem_cons_of_mem a hb)) _

theorem snd_mem_of_mem_enumFrom {α : Type _} :
    ∀ (l : List α) (n : ℕ) (x : ℕ × α), x ∈ l.enumFrom n → x.2 ∈ l := by
  intro l
  induction l with
  | nil => intro n x hx; simp [List.enumFrom] at hx
  | cons a l ih =>
      intro n x hx
      simp only [List.enumFrom] at hx
      rcases List.mem_cons.mp hx with hh | hh
      · subst hh; exact List.mem_cons_self _ _
      · exact List.mem_cons_of_mem _ (ih (n + 1) x hh)

theorem snd_mem_of_mem_enum {α : Type _} (l : List α) (x : ℕ × α)
    (hx : x ∈ l.enum) : x.2 ∈ l :=
  snd_mem_of_mem_enumFrom l 0 x hx

theorem retainedRuns_mem (keep : List ℤ) (cg : Cigar) (t : ℤ × ℕ)
    (ht : t ∈ retainedRuns keep cg) : t ∈ cg := by
  unfold retainedRuns at ht
  rcases List.mem_map.mp ht with ⟨it, hit, rfl⟩
  exact snd_mem_of_mem_enum _ _ (List.mem_of_mem_filter hit)

/-! ## C7, C10: the Markov scorer -/

theorem markovStep_skip (T : ℤ → ℤ → ℝ) (N : ℕ) (s : Option ℤ × ℝ)
    (it : ℕ × (ℤ × ℕ))
    (h : ¬(¬((it.1 = 0 ∨ it.1 = N - 1) ∧ it.2.1 = 4) ∧ it.2.1 ∈ SCORE_OPS)) :
    markovStep T N s it = s := by
  unfold markovStep
  by_cases hb : (it.1 = 0 ∨ it.1 = N - 1) ∧ it.2.1 = 4
  · exact if_neg (not_not_intro hb)
  · have hm : it.2.1 ∉ SCORE_OPS := fun hm => h ⟨hb, hm⟩
    rw [if_pos hb, if_neg hm]

theorem markovStep_retained (T : ℤ → ℤ → ℝ) (N : ℕ) (s : Option ℤ × ℝ)
    (it : ℕ × (ℤ × ℕ)) (hb : ¬((it.1 = 0 ∨ it.1 = N - 1) ∧ it.2.1 = 4))
    (hm : it.2.1 ∈ SCORE_OPS) :
    markovStep T N s it = scoreAct T s it.2 := by
  unfold markovStep scoreAct selfTerm pairTerm
  rw [if_pos hb, if_pos hm]
  rcases s with ⟨prev, acc⟩
  rcases prev with _ | p
  · simp
  · by_cases hT : T p it.2.1 ≠ 0
    · simp [hT]
    · simp [hT]

theorem foldl_scoreAct (T : ℤ → ℤ → ℝ) :
    ∀ (l : Cigar) (prev : Option ℤ) (acc : ℝ),
      (l.foldl (scoreAct T) (prev, acc)).2 = acc + scoreRuns T prev l := by
  intro l
  induction l with
  | nil => intro prev acc; simp [scoreRuns]
  | cons t l ih =>
      intro prev acc
      rcases t with ⟨op, L⟩
      rw [List.foldl_cons]
      have h1 : scoreAct T (prev, acc) (op, L) =
          (some op, acc + selfTerm T op L + pairTerm T prev op) := rfl
      rw [h1, ih, scoreRuns]
      ring

/-- The Markov scorer equals the spec-side sum over retained runs. -/
theorem score_eq_scoreRuns (cigar : Cigar) (T : ℤ → ℤ → ℝ) :
    score_cigar_markov cigar T = scoreRuns T none (retainedRuns SCORE_OPS cigar) := by
  unfold score_cigar_markov retainedRuns
  rw [foldl_of_filter
        (fun it : ℕ × (ℤ × ℕ) =>
          decide (¬((it.1 = 0 ∨ it.1 = cigar.length - 1) ∧ it.2.1 = 4) ∧
            it.2.1 ∈ SCORE_OPS))
        (markovStep T cigar.length)
        (fun s a hfa => markovStep_skip T cigar.length s a (of_decide_eq_false hfa))
        cigar.enum (none, 0)]
  rw [foldl_congr_mem (markovStep T cigar.length) (fun s it => scoreAct T s it.2) _
        (fun s a ha => by
          have hP := of_decide_eq_true (List.mem_filter.mp ha).2
          exact markovStep_retained T cigar.length s a hP.1 hP.2)
        (none, 0)]
  rw [← List.foldl_map Prod.snd (scoreAct T)]
  rw [foldl_scoreAct, zero_add]

/-- C7: `score_cigar_markov` adds, for each retained run of length `L`,
`(L-1) * log T[op,op]` when `T[op,op]` is nonzero and otherwise
`(L-1) * log FIXED_COSTS[op]`, and adds `log T[prev,op]` only when a
previous retained op exists and the learned transition value is
nonzero — a zero pairwise transition contributes nothing. -/
theorem C7_markov_scorer (cigar : Cigar) (T : ℤ → ℤ → ℝ) :
    score_cigar_markov cigar T = scoreRuns T none (retainedRuns SCORE_OPS cigar) :=
  score_eq_scoreRuns cigar T

/-- C10: Match runs (code 0) are not in the scorer's costed op set, so
they contribute nothing and do not update the previous-op state; a
cigar consisting only of Match runs scores exactly 0 for every scoring
model. -/
theorem C10_match_only_scores_zero (cigar : Cigar) (T : ℤ → ℤ → ℝ)
    (h : ∀ t ∈ cigar, t.1 = 0) :
    score_cigar_markov cigar T = 0 := by
  rw [score_eq_scoreRuns]
  have hnil : retainedRuns SCORE_OPS cigar = [] := by
    unfold retainedRuns
    rw [List.filter_eq_nil_iff.mpr ?_]
    · rfl
    · intro it hit
      have h0 : it.2.1 = 0 := h it.2 (snd_mem_of_mem_enum _ _ hit)
      simp [h0, SCORE_OPS]
  rw [hnil]
  rfl

/-- C10 witness: a concrete all-Match cigar scores 0 against the
all-zero model. -/
theorem C10_witness :
    (∀ t ∈ matchCigar, t.1 = 0) ∧ score_cigar_markov matchCigar Tzero = 0 :=
  ⟨by decide, C10_match_only_scores_zero matchCigar Tzero (by decide)⟩

/-! ## C6: the Markov transition-matrix builder -/

theorem buildStep_skip (N : ℕ) (s : Option ℤ × (ℤ → ℤ → ℤ)) (it : ℕ × (ℤ × ℕ))
    (h : ¬(¬((it.1 = 0 ∨ it.1 = N - 1) ∧ it.2.1 = 4) ∧ it.2.1 ∈ CIGAR_OPS_INT)) :
    buildStep N s it = s := by
  unfold buildStep
  by_cases hb : (it.1 = 0 ∨ it.1 = N - 1) ∧ it.2.1 = 4
  · exact if_neg (not_not_intro hb)
  · have hm : it.2.1 ∉ CIGAR_OPS_INT := fun hm => h ⟨hb, hm⟩
    rw [if_pos hb, if_neg hm]

theorem buildStep_retained (N : ℕ) (s : Option ℤ × (ℤ → ℤ → ℤ)) (it : ℕ × (ℤ × ℕ))
    (hb : ¬((it.1 = 0 ∨ it.1 = N - 1) ∧ it.2.1 = 4)) (hm : it.2.1 ∈ CIGAR_OPS_INT) :
    buildStep N s it = countAct s it.2 := by
  unfold buildStep countAct
  rw [if_pos hb, if_pos hm]

theorem foldl_countAct :
    ∀ (l : Cigar) (prev : Option ℤ) (m : ℤ → ℤ → ℤ) (r c : ℤ),
      ((l.foldl countAct (prev, m)).2) r c = m r c + cigRunCount r c prev l := by
  intro l
  induction l with
  | nil => intro prev m r c; simp [cigRunCount]
  | cons t l ih =>
      intro prev m r c
      rcases t with ⟨op, L⟩
      rw [List.foldl_cons]
      have h1 : countAct (prev, m) (op, L) =
          (some op, (countAct (prev, m) (op, L)).2) := rfl
      rw [h1, ih]
      simp only [cigRunCount]
      rcases prev with _ | p
      · have h2 : ((countAct ((none : Option ℤ), m) (op, L)).2) r c =
            m r c + (if r = op ∧ c = op then (L : ℤ) - 1 else 0) := by
          show bumpZ m op op ((L : ℤ) - 1) r c = _
          unfold bumpZ
          split_ifs <;> omega
        rw [h2]
        ring
      · have h2 : ((countAct (some p, m) (op, L)).2) r c =
            m r c + ((if r = op ∧ c = op then (L : ℤ) - 1 else 0) +
              (if r = p ∧ c = op then 1 else 0)) := by
          show bumpZ (bumpZ m op op ((L : ℤ) - 1)) p op 1 r c = _
          unfold bumpZ
          split_ifs <;> omega
        rw [h2]
        ring

theorem selfCount_cons (r op : ℤ) (L : ℕ) (l : Cigar) :
    selfCount r ((op, L) :: l) =
      (if op = r then (L : ℤ) - 1 else 0) + selfCount r l := by
  unfold selfCount
  by_cases h : op = r
  · simp [List.filter_cons, h]
  · simp [List.filter_cons, h]

theorem adjCount_nil (r c : ℤ) : adjCount r c [] = 0 := rfl

theorem adjCount_singleton (r c : ℤ) (t : ℤ × ℕ) : adjCount r c [t] = 0 := rfl

theorem adjCount_cons_cons (r c a b : ℤ) (x y : ℕ) (l : Cigar) :
    adjCount r c ((a, x) :: (b, y) :: l) =
      (if a = r ∧ b = c then 1 else 0) + adjCount r c ((b, y) :: l) := by
  have hp : pairsOf ((a, x) :: (b, y) :: l) =
      ((a, x), (b, y)) :: pairsOf ((b, y) :: l) := rfl
  unfold adjCount
  rw [hp, List.filter_cons]
  by_cases h : a = r ∧ b = c
  · simp [h]
    omega
  · simp [h]

theorem adjCount_head_irrel (r c op : ℤ) (x y : ℕ) (l : Cigar) :
    adjCount r c ((op, x) :: l) = adjCount r c ((op, y) :: l) := by
  cases l with
  | nil => rfl
  | cons u l =>
      rcases u with ⟨b, z⟩
      rw [adjCount_cons_cons, adjCount_cons_cons]

theorem cigRunCount_split (r c : ℤ) :
    ∀ (l : Cigar) (prev : Option ℤ),
      cigRunCount r c prev l =
        (if r = c then selfCount r l else 0) +
          (match prev with
           | some p => adjCount r c ((p, 1) :: l)
           | none => adjCount r c l) := by
  intro l
  induction l with
  | nil =>
      intro prev
      rcases prev with _ | p
      · simp [cigRunCount, selfCount, adjCount, pairsOf]
      · simp [cigRunCount, selfCount, adjCount, pairsOf]
  | cons t l ih =>
      intro prev
      rcases t with ⟨op, L⟩
      have hself : (if r = c then selfCount r ((op, L) :: l) else 0) =
          (if r = op ∧ c = op then (L : ℤ) - 1 else 0) +
            (if r = c then selfCount r l else 0) := by
        by_cases hc : r = c
        · subst hc
          rw [if_pos rfl, if_pos rfl, selfCount_cons]
          by_cases ho : op = r
          · subst ho
            simp
          · have hner : r ≠ op := fun hh => ho hh.symm
            simp [ho, hner]
        · have : ¬(r = op ∧ c = op) := by
            rintro ⟨h1, h2⟩; exact hc (h1.trans h2.symm)
          simp [hc, this]
      rcases prev with _ | p
      · rw [cigRunCount, ih (some op), hself]
        have hadj : adjCount r c ((op, 1) :: l) = adjCount r c ((op, L) :: l) :=
          adjCount_head_irrel r c op 1 L l
        simp only [hadj]
        ring
      · rw [cigRunCount, ih (some op), hself]
        have hadj : adjCount r c ((op, 1) :: l) = adjCount r c ((op, L) :: l) :=
          adjCount_head_irrel r c op 1 L l
        have hpair : adjCount r c ((p, 1) :: (op, L) :: l) =
            (if p = r ∧ op = c then 1 else 0) + adjCount r c ((op, L) :: l) :=
          adjCount_cons_cons r c p op 1 L l
        have hflip : (if r = p ∧ c = op then (1 : ℤ) else 0) =
            (if p = r ∧ op = c then 1 else 0) := by
          by_cases hh : r = p ∧ c = op
          · rw [if_pos hh, if_pos ⟨hh.1.symm, hh.2.symm⟩]
          · have : ¬(p = r ∧ op = c) := fun hh2 => hh ⟨hh2.1.symm, hh2.2.symm⟩
            rw [if_neg hh, if_neg this]
        simp only [hadj, hpair, hflip]
        ring

theorem countCigar_eq (m : ℤ → ℤ → ℤ) (cigar : Cigar) (r c : ℤ) :
    countCigar m cigar r c =
      m r c + cigRunCount r c none (retainedRuns CIGAR_OPS_INT cigar) := by
  unfold countCigar retainedRuns
  rw [foldl_of_filter
        (fun it : ℕ × (ℤ × ℕ) =>
          decide (¬((it.1 = 0 ∨ it.1 = cigar.length - 1) ∧ it.2.1 = 4) ∧
            it.2.1 ∈ CIGAR_OPS_INT))
        (buildStep cigar.length)
        (fun s a hfa => buildStep_skip cigar.length s a (of_decide_eq_false hfa))
        cigar.enum (none, m)]
  rw [foldl_congr_mem (buildStep cigar.length) (fun s it => countAct s it.2) _
        (fun s a ha => by
          have hP := of_decide_eq_true (List.mem_filter.mp ha).2
          exact buildStep_retained cigar.length s a hP.1 hP.2)
        (none, m)]
  rw [← List.foldl_map Prod.snd countAct]
  rw [foldl_countAct]

theorem countMat_aux :
    ∀ (cigars : List Cigar) (m : ℤ → ℤ → ℤ) (r c : ℤ),
      (cigars.foldl countCigar m) r c = m r c + countSpec cigars r c := by
  intro cigars
  induction cigars with
  | nil => intro m r c; simp [countSpec]
  | cons cg cigars ih =>
      intro m r c
      rw [List.foldl_cons, ih, countCigar_eq, cigRunCount_split]
      simp only [countSpec, List.map_cons, List.sum_cons]
      ring

/-- The transition counts accumulated by `build_transition_mat` equal
the spec-side description: `L - 1` on the diagonal per retained run
plus 1 per adjacent pair of retained runs, boundary SoftClips
excluded. -/
theorem countMat_eq_spec (cigars : List Cigar) (r c : ℤ) :
    countMat cigars r c = countSpec cigars r c := by
  unfold countMat
  rw [countMat_aux]
  simp

theorem selfCount_nonneg (r : ℤ) (runs : Cigar) (h : ∀ t ∈ runs, 1 ≤ t.2) :
    0 ≤ selfCount r runs := by
  unfold selfCount
  apply List.sum_nonneg
  intro x hx
  rcases List.mem_map.mp hx with ⟨t, ht, rfl⟩
  have := h t (List.mem_of_mem_filter ht)
  omega

theorem adjCount_nonneg (r c : ℤ) (runs : Cigar) : 0 ≤ adjCount r c runs :=
  Int.natCast_nonneg _

theorem countSpec_nonneg (cigars : List Cigar) (r c : ℤ)
    (h : ∀ cg ∈ cigars, ∀ t ∈ cg, 1 ≤ t.2) : 0 ≤ countSpec cigars r c := by
  unfold countSpec
  apply List.sum_nonneg
  intro x hx
  rcases List.mem_map.mp hx with ⟨cg, hcg, rfl⟩
  have hruns : ∀ t ∈ retainedRuns CIGAR_OPS_INT cg, 1 ≤ t.2 := fun t ht =>
    h cg hcg t (retainedRuns_mem CIGAR_OPS_INT cg t ht)
  have h1 : (0 : ℤ) ≤ (if r = c then selfCount r (retainedRuns CIGAR_OPS_INT cg) else 0) := by
    by_cases hc : r = c
    · rw [if_pos hc]; exact selfCount_nonneg r _ hruns
    · rw [if_neg hc]
  have h2 := adjCount_nonneg r c (retainedRuns CIGAR_OPS_INT cg)
  linarith

theorem list_sum_eq_zero_of_nonneg (f : ℤ → ℤ) :
    ∀ l : List ℤ, (∀ x ∈ l, 0 ≤ f x) → (l.map f).sum = 0 → ∀ x ∈ l, f x = 0 := by
  intro l
  induction l with
  | nil => intro _ _ x hx; exact absurd hx (List.not_mem_nil x)
  | cons a l ih =>
      intro hnn hsum x hx
      have ha : 0 ≤ f a := hnn a (List.mem_cons_self a l)
      have hrest : 0 ≤ ((l.map f).sum) :=
        List.sum_nonneg (by
          intro y hy
          rcases List.mem_map.mp hy with ⟨z, hz, rfl⟩
          exact hnn z (List.mem_cons_of_mem a hz))
      simp only [List.map_cons, List.sum_cons] at hsum
      rcases List.mem_cons.mp hx with hh | hh
      · subst hh; linarith
      · exact ih (fun y hy => hnn y (List.mem_cons_of_mem a hy)) (by linarith) x hh

/-- C6: `build_transition_mat` accumulates `L - 1` on the diagonal per
retained run and 1 per (previous retained op, op) adjacency, excludes
first/last SoftClip runs, and normalizes rows by their row sums: over
the matrix's labels, every row of the result sums to 1 or — when it
accumulated no counts at all — is exactly all-zero. -/
theorem C6_transition_matrix (cigars : List Cigar)
    (h : ∀ cg ∈ cigars, ∀ t ∈ cg, 1 ≤ t.2) :
    (∀ r c : ℤ, countMat cigars r c = countSpec cigars r c) ∧
      ∀ i : Fin OPS_ALL.length,
        (OPS_ALL.map (fun c => build_transition_mat cigars (OPS_ALL.get i) c)).sum = 1 ∨
          (∀ j : Fin OPS_ALL.length,
            countMat cigars (OPS_ALL.get i) (OPS_ALL.get j) = 0 ∧
              build_transition_mat cigars (OPS_ALL.get i) (OPS_ALL.get j) = 0) := by
  refine ⟨fun r c => countMat_eq_spec cigars r c, ?_⟩
  intro i
  by_cases hS : rowSumCount cigars (OPS_ALL.get i) = 0
  · right
    intro j
    have hz : countMat cigars (OPS_ALL.get i) (OPS_ALL.get j) = 0 := by
      refine list_sum_eq_zero_of_nonneg (fun c => countMat cigars (OPS_ALL.get i) c)
        OPS_ALL ?_ hS (OPS_ALL.get j) (List.get_mem OPS_ALL j.1 j.2)
      intro c _
      show 0 ≤ countMat cigars (OPS_ALL.get i) c
      rw [countMat_eq_spec]
      exact countSpec_nonneg cigars _ c h
    refine ⟨hz, ?_⟩
    unfold build_transition_mat
    rw [hz]
    simp
  · left
    unfold build_transition_mat
    rw [list_sum_map_div]
    have hcast : (OPS_ALL.map (fun c => (countMat cigars (OPS_ALL.get i) c : ℚ))).sum =
        ((rowSumCount cigars (OPS_ALL.get i) : ℤ) : ℚ) := by
      unfold rowSumCount
      exact list_sum_int_cast OPS_ALL (fun c => countMat cigars (OPS_ALL.get i) c)
    rw [hcast, div_self (by exact_mod_cast hS)]

/-- C6 witness: the theorem applied to a concrete corpus with positive
run lengths. -/
theorem C6_witness :
    (∀ cg ∈ cigsW, ∀ t ∈ cg, 1 ≤ t.2) ∧
      ((∀ r c : ℤ, countMat cigsW r c = countSpec cigsW r c) ∧
        ∀ i : Fin OPS_ALL.length,
          (OPS_ALL.map (fun c => build_transition_mat cigsW (OPS_ALL.get i) c)).sum = 1 ∨
            (∀ j : Fin OPS_ALL.length,
              countMat cigsW (OPS_ALL.get i) (OPS_ALL.get j) = 0 ∧
                build_transition_mat cigsW (OPS_ALL.get i) (OPS_ALL.get j) = 0)) :=
  ⟨by decide, C6_transition_matrix cigsW (by decide)⟩

/-- C8 counterexample: on the one-run corpus `[[(1, 1)]]` the
accumulation described by the claim yields probability 1 for the
Insertion op, while the fixed-cost model holds the constant 1/200 — the
fixed-cost model is not built by that accumulation. -/
theorem C8_counterexample :
    build_edit_cost [[(1, 1)]] 1 = 1 ∧ fixed_cigar 1 = 1/200 ∧ (1 : ℚ) ≠ 1/200 := by
  refine ⟨?_, rfl, by norm_num⟩
  norm_num [build_edit_cost, edit_counts, editStep, edit_ops_w_cost]

/-! ## Concrete EM evaluation on the two-candidate table -/

theorem joined_tblC_F0C :
    joinedRows tblC F0C = [(rowA1, 1/2), (rowA2, 1/2)] := rfl

/-- C1 witness: the sum-to-one theorem applied to the concrete
two-candidate table. -/
theorem C1_witness :
    joinedRows tblC F0C ≠ [] ∧ ((EM_step tblC F0C).map Prod.snd).sum = 1 :=
  ⟨by rw [joined_tblC_F0C]; exact List.cons_ne_nil _ _,
   (C1_EM_step_sums_to_one tblC F0C
      (by rw [joined_tblC_F0C]; exact List.cons_ne_nil _ _)).1⟩

theorem filter_read_A :
    (joinedRows tblC F0C).filter (fun j => decide (j.1.read = "A")) =
      [(rowA1, 1/2), (rowA2, 1/2)] := by
  rw [joined_tblC_F0C]
  rfl

theorem exp_w1 : Real.exp (0 + Real.log ((1 : ℝ)/2)) = 1/2 := by
  rw [zero_add, Real.exp_log (by norm_num)]

theorem exp_w2 : Real.exp (Real.log ((27 : ℝ)/23) + Real.log ((1 : ℝ)/2)) = 27/46 := by
  rw [Real.exp_add, Real.exp_log (by norm_num), Real.exp_log (by norm_num)]
  norm_num

theorem readLSE_A_F0C : readLSE tblC F0C "A" = Real.log (25/23) := by
  unfold readLSE
  rw [filter_read_A]
  rw [show ([(rowA1, (1 : ℝ)/2), (rowA2, 1/2)].map weight) =
        [0 + Real.log ((1 : ℝ)/2), Real.log ((27 : ℝ)/23) + Real.log ((1 : ℝ)/2)] from rfl]
  rw [logSumExp_eq_log _ (by simp)]
  simp only [List.map_cons, List.map_nil, List.sum_cons, List.sum_nil]
  rw [exp_w1, exp_w2]
  norm_num

theorem nReads_C : nReads tblC F0C = 1 := by
  unfold nReads
  rw [joined_tblC_F0C]
  rfl

theorem targetsOf_C : targetsOf tblC F0C = [1, 2] := by
  unfold targetsOf
  rw [joined_tblC_F0C]
  rfl

theorem posteriors_C :
    posteriors tblC F0C =
      [("A", 1, weight (rowA1, 1/2) - readLSE tblC F0C "A"),
       ("A", 2, weight (rowA2, 1/2) - readLSE tblC F0C "A")] := by
  unfold posteriors
  rw [joined_tblC_F0C]
  rfl

theorem newF1_C : newFval tblC F0C 1 = 23/50 := by
  unfold newFval
  have hfil : (posteriors tblC F0C).filter (fun p => decide (p.2.1 = 1)) =
      [("A", 1, weight (rowA1, 1/2) - readLSE tblC F0C "A")] := by
    rw [posteriors_C]
    rfl
  rw [hfil]
  rw [show ([(("A" : String), (1 : ℕ),
        weight (rowA1, (1 : ℝ)/2) - readLSE tblC F0C "A")].map (fun p => p.2.2)) =
      [weight (rowA1, (1 : ℝ)/2) - readLSE tblC F0C "A"] from rfl]
  rw [logSumExp_singleton, nReads_C, Nat.cast_one, Real.log_one, sub_zero]
  rw [Real.exp_sub, readLSE_A_F0C]
  rw [show weight (rowA1, (1 : ℝ)/2) = 0 + Real.log ((1 : ℝ)/2) from rfl]
  rw [exp_w1, Real.exp_log (by norm_num)]
  norm_num

theorem newF2_C : newFval tblC F0C 2 = 27/50 := by
  unfold newFval
  have hfil : (posteriors tblC F0C).filter (fun p => decide (p.2.1 = 2)) =
      [("A", 2, weight (rowA2, 1/2) - readLSE tblC F0C "A")] := by
    rw [posteriors_C]
    rfl
  rw [hfil]
  rw [show ([(("A" : String), (2 : ℕ),
        weight (rowA2, (1 : ℝ)/2) - readLSE tblC F0C "A")].map (fun p => p.2.2)) =
      [weight (rowA2, (1 : ℝ)/2) - readLSE tblC F0C "A"] from rfl]
  rw [logSumExp_singleton, nReads_C, Nat.cast_one, Real.log_one, sub_zero]
  rw [Real.exp_sub, readLSE_A_F0C]
  rw [show weight (rowA2, (1 : ℝ)/2) =
        Real.log ((27 : ℝ)/23) + Real.log ((1 : ℝ)/2) from rfl]
  rw [exp_w2, Real.exp_log (by norm_num)]
  norm_num

theorem EM_step_C : EM_step tblC F0C = F1C := by
  unfold EM_step EM_step_raw
  rw [targetsOf_C]
  rw [show ([(1 : ℕ), 2].map (fun t => (t, newFval tblC F0C t))) =
      [(1, newFval tblC F0C 1), (2, newFval tblC F0C 2)] from rfl]
  rw [newF1_C, newF2_C]
  have hfil : (([(1, (23 : ℝ)/50), (2, (27 : ℝ)/50)] : List (ℕ × ℝ)).filter
      (fun p => decide (p.2 ≠ 0))) = [(1, 23/50), (2, 27/50)] := by
    rw [List.filter_eq_self]
    intro a ha
    rw [decide_eq_true_eq]
    rcases List.mem_cons.mp ha with rfl | ha2
    · show (23 : ℝ)/50 ≠ 0
      norm_num
    · rcases List.mem_cons.mp ha2 with rfl | ha3
      · show (27 : ℝ)/50 ≠ 0
        norm_num
      · exact absurd ha3 (List.not_mem_nil a)
  rw [hfil]
  rfl

theorem lli1_C : compute_loglikelihood tblC F0C = 2 * Real.log (25/23) := by
  unfold compute_loglikelihood
  rw [joined_tblC_F0C]
  rw [show ([(rowA1, (1 : ℝ)/2), (rowA2, 1/2)].map
        (fun j => readLSE tblC F0C j.1.read)) =
      [readLSE tblC F0C "A", readLSE tblC F0C "A"] from rfl]
  rw [readLSE_A_F0C]
  simp only [List.sum_cons, List.sum_nil]
  ring

theorem joined_tblC_F1C :
    joinedRows tblC F1C = [(rowA1, 23/50), (rowA2, 27/50)] := rfl

theorem filter_read_A_F1C :
    (joinedRows tblC F1C).filter (fun j => decide (j.1.read = "A")) =
      [(rowA1, 23/50), (rowA2, 27/50)] := by
  rw [joined_tblC_F1C]
  rfl

theorem exp_w1f : Real.exp (0 + Real.log ((23 : ℝ)/50)) = 23/50 := by
  rw [zero_add, Real.exp_log (by norm_num)]

theorem exp_w2f :
    Real.exp (Real.log ((27 : ℝ)/23) + Real.log ((27 : ℝ)/50)) = 729/1150 := by
  rw [Real.exp_add, Real.exp_log (by norm_num), Real.exp_log (by norm_num)]
  norm_num

theorem readLSE_A_F1C : readLSE tblC F1C "A" = Real.log (629/575) := by
  unfold readLSE
  rw [filter_read_A_F1C]
  rw [show ([(rowA1, (23 : ℝ)/50), (rowA2, 27/50)].map weight) =
        [0 + Real.log ((23 : ℝ)/50),
         Real.log ((27 : ℝ)/23) + Real.log ((27 : ℝ)/50)] from rfl]
  rw [logSumExp_eq_log _ (by simp)]
  simp only [List.map_cons, List.map_nil, List.sum_cons, List.sum_nil]
  rw [exp_w1f, exp_w2f]
  norm_num

theorem lli2_C : compute_loglikelihood tblC F1C = 2 * Real.log (629/575) := by
  unfold compute_loglikelihood
  rw [joined_tblC_F1C]
  rw [show ([(rowA1, (23 : ℝ)/50), (rowA2, 27/50)].map
        (fun j => readLSE tblC F1C j.1.read)) =
      [readLSE tblC F1C "A", readLSE tblC F1C "A"] from rfl]
  rw [readLSE_A_F1C]
  simp only [List.sum_cons, List.sum_nil]
  ring

theorem lliRead1_C : loglikelihood_by_read tblC F0C = Real.log (25/23) := by
  unfold loglikelihood_by_read
  rw [joined_tblC_F0C]
  rw [show ((([(rowA1, (1 : ℝ)/2), (rowA2, 1/2)].map (fun j => j.1.read)).dedup).map
        (readLSE tblC F0C)) = [readLSE tblC F0C "A"] from rfl]
  rw [readLSE_A_F0C]
  simp

theorem lliRead2_C : loglikelihood_by_read tblC F1C = Real.log (629/575) := by
  unfold loglikelihood_by_read
  rw [joined_tblC_F1C]
  rw [show ((([(rowA1, (23 : ℝ)/50), (rowA2, 27/50)].map (fun j => j.1.read)).dedup).map
        (readLSE tblC F1C)) = [readLSE tblC F1C "A"] from rfl]
  rw [readLSE_A_F1C]
  simp

theorem log_sub_C :
    Real.log ((629 : ℝ)/575) - Real.log (25/23) = Real.log (629/625) := by
  rw [← Real.log_div (by norm_num) (by norm_num)]
  norm_num

theorem log_ratio_ge : (1/200 : ℝ) ≤ Real.log ((629 : ℝ)/625) := by
  rw [Real.le_log_iff_exp_le (by norm_num)]
  have h1 := Real.add_one_lt_exp (x := -(1/200 : ℝ)) (by norm_num)
  rw [Real.exp_neg] at h1
  have hp := Real.exp_pos (1/200 : ℝ)
  have h2 : (199/200 : ℝ) * Real.exp (1/200) < 1 := by
    have h3 := mul_lt_mul_of_pos_right h1 hp
    rw [inv_mul_cancel₀ (ne_of_gt hp)] at h3
    calc (199/200 : ℝ) * Real.exp (1/200)
        = (-(1/200) + 1) * Real.exp (1/200) := by norm_num
      _ < 1 := h3
  nlinarith [hp]

theorem log_ratio_lt : Real.log ((629 : ℝ)/625) < 1/100 := by
  rw [Real.log_lt_iff_lt_exp (by norm_num)]
  have h1 := Real.add_one_lt_exp (x := (1/100 : ℝ)) (by norm_num)
  have h2 : (629 : ℝ)/625 < 1/100 + 1 := by norm_num
  linarith

theorem EM_iters_C_none : EM_iters tblC F0C 2 = none := by
  unfold EM_iters
  rw [show (2 : ℕ) = 1 + 1 from rfl, EM_iters_aux]
  rw [if_neg (by
    rw [EReal.coe_sub_bot]
    exact not_top_lt)]
  rw [EM_step_C]
  rw [show (1 : ℕ) = 0 + 1 from rfl, EM_iters_aux]
  rw [if_neg (by
    rw [lli2_C, lli1_C, ← EReal.coe_sub]
    rw [show (2 * Real.log ((629 : ℝ)/575) - 2 * Real.log (25/23)) =
          2 * Real.log ((629 : ℝ)/625) by rw [← log_sub_C]; ring]
    rw [EReal.coe_lt_coe_iff]
    intro hcon
    have h1 := log_ratio_ge
    unfold lli_threshold at hcon
    linarith)]
  rfl

/-! ## C2: the convergence loop -/

theorem EM_iters_aux_iff (tbl : List PRow) (F0 : List (ℕ × ℝ)) (k : ℕ) :
    ∀ fuel i : ℕ, 1 ≤ i →
      (EM_iters_aux tbl fuel
          (if i = 1 then (⊥ : EReal) else ((lliSeq tbl F0 (i - 1) : ℝ) : EReal)) i
          ((EM_step tbl)^[i - 1] F0) = some k ↔
        i ≤ k ∧ k < i + fuel ∧
          lliDelta tbl F0 k < ((lli_threshold : ℝ) : EReal) ∧
          ∀ j, i ≤ j → j < k → ¬ lliDelta tbl F0 j < ((lli_threshold : ℝ) : EReal)) := by
  intro fuel
  induction fuel with
  | zero =>
      intro i hi
      simp only [EM_iters_aux]
      constructor
      · intro hc
        exact Option.noConfusion hc
      · rintro ⟨h1, h2, _, _⟩
        omega
  | succ fuel ih =>
      intro i hi
      have hc : (((compute_loglikelihood tbl ((EM_step tbl)^[i - 1] F0) : ℝ) : EReal) -
          (if i = 1 then (⊥ : EReal) else ((lliSeq tbl F0 (i - 1) : ℝ) : EReal))) =
          lliDelta tbl F0 i := rfl
      simp only [EM_iters_aux]
      rw [hc]
      by_cases hd : lliDelta tbl F0 i < ((lli_threshold : ℝ) : EReal)
      · rw [if_pos hd]
        constructor
        · intro hsome
          have hk : i = k := Option.some.inj hsome
          subst hk
          exact ⟨le_refl i, by omega, hd,
            fun j hj1 hj2 => absurd (lt_of_le_of_lt hj1 hj2) (lt_irrefl i)⟩
        · rintro ⟨h1, h2, h3, h4⟩
          have hik : i = k := by
            by_contra hne
            exact h4 i (le_refl i) (lt_of_le_of_ne h1 hne) hd
          rw [hik]
      · rw [if_neg hd]
        have hF : EM_step tbl ((EM_step tbl)^[i - 1] F0) = (EM_step tbl)^[(i + 1) - 1] F0 := by
          rw [show (i + 1) - 1 = (i - 1) + 1 by omega, Function.iterate_succ_apply']
        have hprev : ((compute_loglikelihood tbl ((EM_step tbl)^[i - 1] F0) : ℝ) : EReal) =
            (if i + 1 = 1 then (⊥ : EReal)
             else ((lliSeq tbl F0 ((i + 1) - 1) : ℝ) : EReal)) := by
          rw [if_neg (by omega), show (i + 1) - 1 = i by omega]
          rfl
        rw [hprev, hF, ih (i + 1) (by omega)]
        constructor
        · rintro ⟨h1, h2, h3, h4⟩
          refine ⟨by omega, by omega, h3, ?_⟩
          intro j hj1 hj2
          rcases Nat.eq_or_lt_of_le hj1 with hji | hji
          · exact hji ▸ hd
          · exact h4 j (by omega) hj2
        · rintro ⟨h1, h2, h3, h4⟩
          have hik : i ≠ k := fun he => hd (he ▸ h3)
          exact ⟨by omega, by omega, h3, fun j hj1 hj2 => h4 j (by omega) hj2⟩

/-- C2 (amended): the EM loop stops at iteration `k` exactly when `k`
is the first iteration at which the increase of the total data log
likelihood — computed, as in `compute_loglikelihood`, as the sum over
the (read, target) rows of the joined table of that row's read's
normalizing constant, i.e. each read's constant counted once per
surviving candidate — over the previous iteration's value falls below
the fixed epsilon 0.01; the baseline before the first iteration is
negative infinity, so at least two iterations always execute. -/
theorem C2_amended (tbl : List PRow) (F0 : List (ℕ × ℝ)) (fuel k : ℕ) :
    EM_iters tbl F0 fuel = some k ↔
      2 ≤ k ∧ k ≤ fuel ∧ lliDelta tbl F0 k < ((lli_threshold : ℝ) : EReal) ∧
        ∀ j, 2 ≤ j → j < k → ¬ lliDelta tbl F0 j < ((lli_threshold : ℝ) : EReal) := by
  have hD1 : lliDelta tbl F0 1 = ⊤ := by
    unfold lliDelta
    rw [if_pos rfl]
    exact EReal.coe_sub_bot _
  have hbase := EM_iters_aux_iff tbl F0 k fuel 1 (le_refl 1)
  rw [if_pos rfl] at hbase
  rw [show (1 : ℕ) - 1 = 0 from rfl, Function.iterate_zero_apply] at hbase
  unfold EM_iters
  rw [hbase]
  constructor
  · rintro ⟨h1, h2, h3, h4⟩
    have hk1 : k ≠ 1 := by
      rintro rfl
      rw [hD1] at h3
      exact absurd h3 not_top_lt
    exact ⟨by omega, by omega, h3, fun j hj1 hj2 => h4 j (by omega) hj2⟩
  · rintro ⟨h1, h2, h3, h4⟩
    refine ⟨by omega, by omega, h3, ?_⟩
    intro j hj1 hj2
    rcases Nat.eq_or_lt_of_le hj1 with hj | hj
    · rw [← hj, hD1]
      exact not_top_lt
    · exact h4 j (by omega) hj2

theorem lliSeqByRead1_C : lliSeqByRead tblC F0C 1 = Real.log (25/23) := by
  unfold lliSeqByRead
  rw [show (1 : ℕ) - 1 = 0 from rfl, Function.iterate_zero_apply, lliRead1_C]

theorem lliSeqByRead2_C : lliSeqByRead tblC F0C 2 = Real.log (629/575) := by
  unfold lliSeqByRead
  rw [show (2 : ℕ) - 1 = 1 from rfl, Function.iterate_one, EM_step_C, lliRead2_C]

/-- C2 counterexample: the loop's stopping rule is *not* governed by
the per-distinct-read log likelihood the claim describes.  On the
concrete two-candidate table, the by-read increase at iteration 2 is
`log(629/625) < 0.01`, so the claimed rule demands convergence at
iteration 2 with fuel 2, but the loop — whose `compute_loglikelihood`
counts read A's normalizing constant once per candidate, doubling the
increase past 0.01 — does not stop there. -/
theorem C2_counterexample :
    ¬ ∀ (tbl : List PRow) (F0 : List (ℕ × ℝ)) (fuel k : ℕ),
        EM_iters tbl F0 fuel = some k ↔
          2 ≤ k ∧ k ≤ fuel ∧
            lliDeltaByRead tbl F0 k < ((lli_threshold : ℝ) : EReal) ∧
            ∀ j, 2 ≤ j → j < k →
              ¬ lliDeltaByRead tbl F0 j < ((lli_threshold : ℝ) : EReal) := by
  intro hclaim
  have hrhs : 2 ≤ 2 ∧ 2 ≤ 2 ∧
      lliDeltaByRead tblC F0C 2 < ((lli_threshold : ℝ) : EReal) ∧
      ∀ j, 2 ≤ j → j < 2 →
        ¬ lliDeltaByRead tblC F0C j < ((lli_threshold : ℝ) : EReal) := by
    refine ⟨le_refl 2, le_refl 2, ?_, ?_⟩
    · unfold lliDeltaByRead
      rw [if_neg (by norm_num)]
      rw [show (2 : ℕ) - 1 = 1 from rfl]
      rw [lliSeqByRead2_C, lliSeqByRead1_C, ← EReal.coe_sub, log_sub_C,
        EReal.coe_lt_coe_iff]
      unfold lli_threshold
      exact log_ratio_lt
    · exact fun j hj1 hj2 => absurd (lt_of_le_of_lt hj1 hj2) (lt_irrefl 2)
  have h2 := (hclaim tblC F0C 2 2).mpr hrhs
  rw [EM_iters_C_none] at h2
  exact Option.noConfusion h2

end Lemur
